import Mathlib

/-!
Verification of the order-tracking repository (admin_app.py and app.py).

The definitions below are a shallow embedding of the Python source:
strings are Lean `String`s (lists of characters), pandas data frames of
string cells are lists of rows, Python dictionaries are association
lists with in-place update, and fallible parsing returns `Option` or
`Except` values.  Every definition is translated from the source code;
the sole exception is the brand-code lookup table, which lives in a
part of the repository that is not available and is modelled from the
specification text (see `brandLookup`).
-/

set_option maxRecDepth 4096

/-! ## Python string stripping -/

/-- Characters removed by Python `str.strip()` (ASCII whitespace). -/
def isPySpace (c : Char) : Bool :=
  c = ' ' || c = '\t' || c = '\n' || c = '\r' || c = '\x0b' || c = '\x0c'

/-- Embedding of Python `str.strip()` on character lists: drop leading and
trailing whitespace. -/
def stripL (l : List Char) : List Char :=
  ((l.dropWhile isPySpace).reverse.dropWhile isPySpace).reverse

/-- Embedding of Python `str.strip()` on strings. -/
def pyStrip (s : String) : String :=
  String.mk (stripL s.data)

theorem dropWhile_noSpace {l : List Char} (h : ∀ c ∈ l, isPySpace c = false) :
    l.dropWhile isPySpace = l := by
  cases l with
  | nil => rfl
  | cons c cs =>
    have hc : isPySpace c = false := h c (List.mem_cons_self c cs)
    simp [List.dropWhile, hc]

theorem stripL_noSpace {l : List Char} (h : ∀ c ∈ l, isPySpace c = false) :
    stripL l = l := by
  unfold stripL
  rw [dropWhile_noSpace h]
  rw [dropWhile_noSpace (by intro c hc; exact h c (List.mem_reverse.mp hc))]
  exact List.reverse_reverse l

theorem dropWhile_all_space {l : List Char} (h : ∀ c ∈ l, isPySpace c = true) :
    l.dropWhile isPySpace = [] := by
  induction l with
  | nil => rfl
  | cons c cs ih =>
    have hc : isPySpace c = true := h c (List.mem_cons_self c cs)
    rw [List.dropWhile_cons_of_pos hc]
    exact ih (fun x hx => h x (List.mem_cons_of_mem c hx))

theorem stripL_all_space {l : List Char} (h : ∀ c ∈ l, isPySpace c = true) :
    stripL l = [] := by
  unfold stripL
  rw [dropWhile_all_space h]
  rfl

/-- The head of `dropWhile isPySpace` is never whitespace. -/
theorem dropWhile_head_noSpace (l : List Char) :
    ∀ c cs, l.dropWhile isPySpace = c :: cs → isPySpace c = false := by
  induction l with
  | nil => intro c cs h; simp [List.dropWhile] at h
  | cons a as ih =>
    intro c cs h
    by_cases ha : isPySpace a = true
    · rw [List.dropWhile_cons_of_pos ha] at h
      exact ih c cs h
    · rw [List.dropWhile_cons_of_neg ha] at h
      cases h
      exact Bool.eq_false_iff.mpr ha

/-- After one strip the first character is not whitespace. -/
theorem stripL_head_noSpace (l : List Char) :
    ∀ c cs, stripL l = c :: cs → isPySpace c = false := by
  intro c cs h
  unfold stripL at h
  set A := l.dropWhile isPySpace with hA
  have hpre : A.reverse.dropWhile isPySpace <:+ A.reverse := List.dropWhile_suffix _
  have hrev : (A.reverse.dropWhile isPySpace).reverse <+: A :=
    by
      have := List.reverse_prefix.mpr hpre
      simpa using this
  rw [h] at hrev
  obtain ⟨t, ht⟩ := hrev
  cases hAeq : A with
  | nil => rw [hAeq] at ht; simp at ht
  | cons a as =>
    rw [hAeq] at ht
    have hca : c = a := by
      have := ht
      simp [List.cons_append] at this
      exact this.1
    subst hca
    exact dropWhile_head_noSpace l c as hAeq

/-- The last character after one strip is not whitespace. -/
theorem stripL_last_noSpace (l : List Char) :
    ∀ c cs, (stripL l).reverse = c :: cs → isPySpace c = false := by
  intro c cs h
  unfold stripL at h
  rw [List.reverse_reverse] at h
  exact dropWhile_head_noSpace _ c cs h

/-- Python strip is idempotent. -/
theorem stripL_idem (l : List Char) : stripL (stripL l) = stripL l := by
  cases hs : stripL l with
  | nil => simp [stripL]
  | cons c cs =>
    have hhead : isPySpace c = false := stripL_head_noSpace l c cs hs
    cases hr : (c :: cs).reverse with
    | nil => simp at hr
    | cons d ds =>
      have hlast : isPySpace d = false := by
        apply stripL_last_noSpace l d ds
        rw [hs, hr]
      have h1 : List.dropWhile isPySpace (c :: cs) = c :: cs :=
        List.dropWhile_cons_of_neg (by simp [hhead])
      have h2 : List.dropWhile isPySpace ((c :: cs).reverse) = (c :: cs).reverse := by
        rw [hr]
        exact List.dropWhile_cons_of_neg (by simp [hlast])
      show ((List.dropWhile isPySpace (c :: cs)).reverse.dropWhile isPySpace).reverse = c :: cs
      rw [h1, h2, List.reverse_reverse]

theorem pyStrip_idem (s : String) : pyStrip (pyStrip s) = pyStrip s := by
  unfold pyStrip
  rw [stripL_idem]

/-! ## The persisted order table (admin_app.py) -/

/-- The canonical nine columns of `orders.csv` (`COLUMNS` in admin_app.py). -/
def COLUMNS : List String :=
  ["Pedido", "Emissao", "Marca", "Fabricante", "Destino", "Status",
   "Qtd_Pedido", "Qtd_Faturado", "Alteracao"]

/-- One row of the persisted order table: exactly the nine canonical
fields, in canonical order. -/
structure OrderRec where
  Pedido : String
  Emissao : String
  Marca : String
  Fabricante : String
  Destino : String
  Status : String
  Qtd_Pedido : String
  Qtd_Faturado : String
  Alteracao : String
deriving DecidableEq, Repr

/-- Does the table hold a row whose `Pedido` equals `k`
(the mask `df["Pedido"] == pedido` having any true entry)? -/
def hasKey (df : List OrderRec) (k : String) : Bool :=
  df.any (fun r => r.Pedido = k)

/-- One iteration of the upsert loop in `main` of admin_app.py: if some
row matches the incoming `Pedido`, every matching row has all nine
fields overwritten (`df.loc[mask, col] = rec[col]` assigns every masked
row); otherwise the record is appended. -/
def upsertOne (df : List OrderRec) (rec : OrderRec) : List OrderRec :=
  if hasKey df rec.Pedido then
    df.map (fun r => if r.Pedido = rec.Pedido then rec else r)
  else df ++ [rec]

/-- The upsert loop step carrying the `novos` and `atualizados` counters. -/
def upsert_step (st : List OrderRec × Nat × Nat) (rec : OrderRec) :
    List OrderRec × Nat × Nat :=
  if hasKey st.1 rec.Pedido then
    (st.1.map (fun r => if r.Pedido = rec.Pedido then rec else r), st.2.1, st.2.2 + 1)
  else (st.1 ++ [rec], st.2.1 + 1, st.2.2)

/-- The merge phase of `main` in admin_app.py: if the loaded table is
empty the records become the table wholesale
(`pd.DataFrame(records, columns=COLUMNS)`); otherwise each record is
upserted in input order.  Returns the final table together with the
`novos` and `atualizados` counters. -/
def upsert_many (df : List OrderRec) (records : List OrderRec) :
    List OrderRec × Nat × Nat :=
  if df = [] then (records, records.length, 0)
  else records.foldl upsert_step (df, 0, 0)

theorem upsert_step_fst (st : List OrderRec × Nat × Nat) (rec : OrderRec) :
    (upsert_step st rec).1 = upsertOne st.1 rec := by
  unfold upsert_step upsertOne
  by_cases h : hasKey st.1 rec.Pedido <;> simp [h]

theorem foldl_upsert_step_fst (records : List OrderRec) :
    ∀ df n u, (records.foldl upsert_step (df, n, u)).1 = records.foldl upsertOne df := by
  induction records with
  | nil => intro df n u; rfl
  | cons rec rest ih =>
    intro df n u
    show (rest.foldl upsert_step (upsert_step (df, n, u) rec)).1 = _
    have h1 : upsert_step (df, n, u) rec =
        ((upsert_step (df, n, u) rec).1, (upsert_step (df, n, u) rec).2.1,
         (upsert_step (df, n, u) rec).2.2) := rfl
    rw [h1, ih, upsert_step_fst]
    rfl

/-- The key of a row is unchanged by the overwrite map. -/
theorem overwrite_key (rec r : OrderRec) :
    (if r.Pedido = rec.Pedido then rec else r).Pedido = r.Pedido := by
  by_cases h : r.Pedido = rec.Pedido <;> simp [h]

theorem hasKey_iff (df : List OrderRec) (k : String) :
    hasKey df k = true ↔ ∃ r ∈ df, r.Pedido = k := by
  unfold hasKey
  simp [List.any_eq_true]

theorem hasKey_upsertOne (df : List OrderRec) (rec : OrderRec) (k : String) :
    hasKey df k = true → hasKey (upsertOne df rec) k = true := by
  intro h
  obtain ⟨r, hr, hrk⟩ := (hasKey_iff df k).mp h
  unfold upsertOne
  by_cases hm : hasKey df rec.Pedido
  · rw [if_pos hm]
    apply (hasKey_iff _ k).mpr
    refine ⟨if r.Pedido = rec.Pedido then rec else r, List.mem_map_of_mem _ hr, ?_⟩
    rw [overwrite_key, hrk]
  · rw [if_neg hm]
    apply (hasKey_iff _ k).mpr
    exact ⟨r, List.mem_append_left _ hr, hrk⟩

/-! ## Upsert algebra -/

/-- The last record in the incoming list whose `Pedido` equals `k`. -/
def lastWith : List OrderRec → String → Option OrderRec
  | [], _ => none
  | r :: rest, k =>
    match lastWith rest k with
    | some x => some x
    | none => if r.Pedido = k then some r else none

theorem lastWith_key {recs : List OrderRec} {k : String} {x : OrderRec}
    (h : lastWith recs k = some x) : x.Pedido = k := by
  induction recs with
  | nil => simp [lastWith] at h
  | cons r rest ih =>
    unfold lastWith at h
    cases hr : lastWith rest k with
    | some y => rw [hr] at h; cases h; exact ih hr
    | none =>
      rw [hr] at h
      by_cases hp : r.Pedido = k
      · rw [if_pos hp] at h; cases h; exact hp
      · rw [if_neg hp] at h; cases h

theorem lastWith_mem {recs : List OrderRec} {k : String} {x : OrderRec}
    (h : lastWith recs k = some x) : x ∈ recs := by
  induction recs with
  | nil => simp [lastWith] at h
  | cons r rest ih =>
    unfold lastWith at h
    cases hr : lastWith rest k with
    | some y =>
      rw [hr] at h; cases h
      exact List.mem_cons_of_mem r (ih hr)
    | none =>
      rw [hr] at h
      by_cases hp : r.Pedido = k
      · rw [if_pos hp] at h; cases h; exact List.mem_cons_self _ _
      · rw [if_neg hp] at h; cases h

theorem lastWith_none_key {recs : List OrderRec} {k : String}
    (h : lastWith recs k = none) : ∀ r ∈ recs, r.Pedido ≠ k := by
  induction recs with
  | nil => intro r hr; simp at hr
  | cons r rest ih =>
    intro q hq
    unfold lastWith at h
    cases hr : lastWith rest k with
    | some y => rw [hr] at h; cases h
    | none =>
      rw [hr] at h
      by_cases hp : r.Pedido = k
      · rw [if_pos hp] at h; cases h
      · rw [if_neg hp] at h
        rcases List.mem_cons.mp hq with rfl | hq2
        · exact hp
        · exact ih hr q hq2

theorem lastWith_isSome_of_mem {recs : List OrderRec} {r : OrderRec}
    (h : r ∈ recs) : ∃ x, lastWith recs r.Pedido = some x := by
  cases hl : lastWith recs r.Pedido with
  | some x => exact ⟨x, rfl⟩
  | none => exact absurd rfl (lastWith_none_key hl r h)

/-- Overwrites commute with later overwrites: the pointwise composite of
processing `rec` and then the rest equals a single lookup of the last
matching record. -/
theorem pass_formula :
    ∀ (recs : List OrderRec) (T : List OrderRec),
      (∀ rec ∈ recs, hasKey T rec.Pedido = true) →
      recs.foldl upsertOne T =
        T.map (fun r => (lastWith recs r.Pedido).getD r) := by
  intro recs
  induction recs with
  | nil =>
    intro T _
    simp [lastWith]
  | cons rec rest ih =>
    intro T hkeys
    have hk : hasKey T rec.Pedido = true := hkeys rec (List.mem_cons_self rec rest)
    show rest.foldl upsertOne (upsertOne T rec) = _
    have hone : upsertOne T rec =
        T.map (fun r => if r.Pedido = rec.Pedido then rec else r) := by
      unfold upsertOne
      rw [if_pos hk]
    have hkeys2 : ∀ q ∈ rest, hasKey (upsertOne T rec) q.Pedido = true := by
      intro q hq
      exact hasKey_upsertOne T rec q.Pedido (hkeys q (List.mem_cons_of_mem rec hq))
    rw [ih (upsertOne T rec) hkeys2, hone, List.map_map]
    apply List.map_congr_left
    intro r _
    show (lastWith rest (if r.Pedido = rec.Pedido then rec else r).Pedido).getD
        (if r.Pedido = rec.Pedido then rec else r) =
      (lastWith (rec :: rest) r.Pedido).getD r
    rw [overwrite_key]
    show _ = (match lastWith rest r.Pedido with
      | some x => some x
      | none => if rec.Pedido = r.Pedido then some rec else none).getD r
    cases hlw : lastWith rest r.Pedido with
    | some x => simp
    | none =>
      by_cases hp : r.Pedido = rec.Pedido
      · simp [hp, eq_comm]
      · have : ¬ rec.Pedido = r.Pedido := fun h => hp h.symm
        simp [hp, this]

/-- After a single upsert its own key is always present. -/
theorem hasKey_upsertOne_self (T : List OrderRec) (rec : OrderRec) :
    hasKey (upsertOne T rec) rec.Pedido = true := by
  unfold upsertOne
  by_cases hm : hasKey T rec.Pedido
  · rw [if_pos hm]
    obtain ⟨r, hr, hrk⟩ := (hasKey_iff T rec.Pedido).mp hm
    apply (hasKey_iff _ _).mpr
    refine ⟨if r.Pedido = rec.Pedido then rec else r, List.mem_map_of_mem _ hr, ?_⟩
    rw [overwrite_key, hrk]
  · rw [if_neg hm]
    apply (hasKey_iff _ _).mpr
    exact ⟨rec, List.mem_append_right _ (List.mem_cons_self rec []), rfl⟩

/-- Key presence is preserved across a whole pass. -/
theorem hasKey_fold :
    ∀ (recs : List OrderRec) (T : List OrderRec) (k : String),
      hasKey T k = true → hasKey (recs.foldl upsertOne T) k = true := by
  intro recs
  induction recs with
  | nil => intro T k h; exact h
  | cons q rest ih =>
    intro T k h
    exact ih (upsertOne T q) k (hasKey_upsertOne T q k h)

/-- Every key of a processed record is present after the pass. -/
theorem key_present_after_fold :
    ∀ (recs : List OrderRec) (T : List OrderRec) (rec : OrderRec),
      rec ∈ recs → hasKey (recs.foldl upsertOne T) rec.Pedido = true := by
  intro recs
  induction recs with
  | nil => intro T rec h; simp at h
  | cons q rest ih =>
    intro T rec h
    rcases List.mem_cons.mp h with rfl | h2
    · exact hasKey_fold rest (upsertOne T rec) rec.Pedido (hasKey_upsertOne_self T rec)
    · exact ih (upsertOne T q) rec h2

/-- Rows of a single upsert that carry the upserted key are the record. -/
theorem upsertOne_rows_with_key (T : List OrderRec) (c : OrderRec) :
    ∀ r ∈ upsertOne T c, r.Pedido = c.Pedido → r = c := by
  intro r hr hk
  unfold upsertOne at hr
  by_cases hm : hasKey T c.Pedido
  · rw [if_pos hm] at hr
    obtain ⟨q, hq, hfq⟩ := List.mem_map.mp hr
    by_cases hqc : q.Pedido = c.Pedido
    · rw [if_pos hqc] at hfq; exact hfq.symm
    · rw [if_neg hqc] at hfq
      rw [← hfq] at hk
      exact absurd hk hqc
  · rw [if_neg hm] at hr
    rcases List.mem_append.mp hr with hT | hc
    · exfalso
      exact hm ((hasKey_iff T c.Pedido).mpr ⟨r, hT, hk⟩)
    · cases List.mem_cons.mp hc with
      | inl h => exact h
      | inr h => simp at h

/-- If no processed record carries key `c.Pedido`, rows with that key are
untouched by the pass. -/
theorem rows_with_absent_key_stable :
    ∀ (recs : List OrderRec) (T : List OrderRec) (c : OrderRec),
      (∀ q ∈ recs, q.Pedido ≠ c.Pedido) →
      (∀ r ∈ T, r.Pedido = c.Pedido → r = c) →
      (∀ r ∈ recs.foldl upsertOne T, r.Pedido = c.Pedido → r = c) := by
  intro recs
  induction recs with
  | nil => intro T c _ hT; exact hT
  | cons q rest ih =>
    intro T c hks hT
    apply ih (upsertOne T q) c (fun p hp => hks p (List.mem_cons_of_mem q hp))
    intro r hr hk
    have hq : q.Pedido ≠ c.Pedido := hks q (List.mem_cons_self q rest)
    unfold upsertOne at hr
    by_cases hm : hasKey T q.Pedido
    · rw [if_pos hm] at hr
      obtain ⟨p, hp, hfp⟩ := List.mem_map.mp hr
      by_cases hpq : p.Pedido = q.Pedido
      · rw [if_pos hpq] at hfp
        rw [← hfp] at hk
        exact absurd hk hq
      · rw [if_neg hpq] at hfp
        rw [← hfp] at hk ⊢
        exact hT p hp hk
    · rw [if_neg hm] at hr
      rcases List.mem_append.mp hr with hTm | hcm
      · exact hT r hTm hk
      · cases List.mem_cons.mp hcm with
        | inl h => rw [h] at hk; exact absurd hk hq
        | inr h => simp at h

/-- After a pass every row carrying a processed key equals the last
processed record with that key. -/
theorem rows_agree_with_last :
    ∀ (recs : List OrderRec) (T : List OrderRec) (r : OrderRec) (x : OrderRec),
      r ∈ recs.foldl upsertOne T → lastWith recs r.Pedido = some x → r = x := by
  intro recs
  induction recs with
  | nil => intro T r x _ hl; simp [lastWith] at hl
  | cons rec rest ih =>
    intro T r x hr hl
    unfold lastWith at hl
    cases hrest : lastWith rest r.Pedido with
    | some y =>
      rw [hrest] at hl; cases hl
      exact ih (upsertOne T rec) r x hr hrest
    | none =>
      rw [hrest] at hl
      by_cases hp : rec.Pedido = r.Pedido
      · rw [if_pos hp] at hl
        injection hl with hlx
        subst hlx
        apply rows_with_absent_key_stable rest (upsertOne T rec) rec ?_ ?_ r hr hp.symm
        · intro q hq
          rw [hp]
          exact lastWith_none_key hrest q hq
        · intro p hp2 hk
          exact upsertOne_rows_with_key T rec p hp2 hk
      · rw [if_neg hp] at hl; cases hl

/-- A pass over a non-empty table leaves it non-empty. -/
theorem foldl_upsertOne_ne_nil :
    ∀ (recs : List OrderRec) (T : List OrderRec), T ≠ [] →
      recs.foldl upsertOne T ≠ [] := by
  intro recs
  induction recs with
  | nil => intro T h; exact h
  | cons rec rest ih =>
    intro T h
    apply ih
    unfold upsertOne
    by_cases hm : hasKey T rec.Pedido
    · rw [if_pos hm]
      intro hmap
      exact h (List.map_eq_nil_iff.mp hmap)
    · rw [if_neg hm]
      intro happ
      simp at happ

/-- With pairwise distinct keys, the last record with the key of a member
is that member itself. -/
theorem lastWith_nodup {recs : List OrderRec}
    (hnd : (recs.map (fun r => r.Pedido)).Nodup) :
    ∀ r ∈ recs, lastWith recs r.Pedido = some r := by
  induction recs with
  | nil => intro r hr; simp at hr
  | cons q rest ih =>
    intro r hr
    rw [List.map_cons, List.nodup_cons] at hnd
    rcases List.mem_cons.mp hr with rfl | h2
    · have hnone : lastWith rest r.Pedido = none := by
        cases hl : lastWith rest r.Pedido with
        | none => rfl
        | some y =>
          exfalso
          apply hnd.1
          rw [← lastWith_key hl]
          exact List.mem_map_of_mem _ (lastWith_mem hl)
      unfold lastWith
      rw [hnone]
      simp
    · unfold lastWith
      rw [ih hnd.2 r h2]

/-- Convenience constructor for concrete order records: key and issue
date given, all other fields empty. -/
def mkRec (p e : String) : OrderRec :=
  ⟨p, e, "", "", "", "", "", "", ""⟩

/-- C1 counterexample: on an empty table, a record list containing two
records with the same `Pedido` is installed wholesale, so a second
application of the same upsert overwrites both duplicate rows with the
later record and the table changes.  `upsert_many` is therefore not
idempotent as claimed. -/
theorem upsert_many_not_idempotent :
    (upsert_many (upsert_many [] [mkRec "1" "a", mkRec "1" "b"]).1
        [mkRec "1" "a", mkRec "1" "b"]).1 ≠
      (upsert_many [] [mkRec "1" "a", mkRec "1" "b"]).1 := by
  decide

/-- C1 (amended): `upsert_many` is idempotent provided the starting table
is non-empty or the incoming record list has pairwise distinct
`Pedido` keys. -/
theorem upsert_many_idem (df recs : List OrderRec)
    (h : df ≠ [] ∨ (recs.map (fun r => r.Pedido)).Nodup) :
    (upsert_many (upsert_many df recs).1 recs).1 = (upsert_many df recs).1 := by
  by_cases hdf : df = []
  · have hnd : (recs.map (fun r => r.Pedido)).Nodup := by
      rcases h with h1 | h2
      · exact absurd hdf h1
      · exact h2
    subst hdf
    have h1 : (upsert_many [] recs).1 = recs := by
      unfold upsert_many
      simp
    rw [h1]
    by_cases hrecs : recs = []
    · subst hrecs
      unfold upsert_many
      simp
    · have h2 : (upsert_many recs recs).1 = recs.foldl upsertOne recs := by
        unfold upsert_many
        rw [if_neg hrecs]
        exact foldl_upsert_step_fst recs recs 0 0
      rw [h2]
      have hkeys : ∀ rec ∈ recs, hasKey recs rec.Pedido = true :=
        fun rec hrec => (hasKey_iff _ _).mpr ⟨rec, hrec, rfl⟩
      rw [pass_formula recs recs hkeys]
      have hid : ∀ r ∈ recs, (lastWith recs r.Pedido).getD r = r := by
        intro r hr
        rw [lastWith_nodup hnd r hr]
        rfl
      have hmap : recs.map (fun r => (lastWith recs r.Pedido).getD r) = recs.map id :=
        List.map_congr_left hid
      rw [hmap, List.map_id]
  · have h1 : (upsert_many df recs).1 = recs.foldl upsertOne df := by
      unfold upsert_many
      rw [if_neg hdf]
      exact foldl_upsert_step_fst recs df 0 0
    have hT1ne : recs.foldl upsertOne df ≠ [] := foldl_upsertOne_ne_nil recs df hdf
    have h2 : (upsert_many (recs.foldl upsertOne df) recs).1 =
        recs.foldl upsertOne (recs.foldl upsertOne df) := by
      unfold upsert_many
      rw [if_neg hT1ne]
      exact foldl_upsert_step_fst recs _ 0 0
    rw [h1, h2]
    have hkeys : ∀ rec ∈ recs, hasKey (recs.foldl upsertOne df) rec.Pedido = true :=
      fun rec hrec => key_present_after_fold recs df rec hrec
    rw [pass_formula recs (recs.foldl upsertOne df) hkeys]
    have hid : ∀ r ∈ recs.foldl upsertOne df,
        (lastWith recs r.Pedido).getD r = r := by
      intro r hr
      cases hlw : lastWith recs r.Pedido with
      | none => rfl
      | some x =>
        rw [rows_agree_with_last recs df r x hr hlw]
        rfl
    have hmap : (recs.foldl upsertOne df).map (fun r => (lastWith recs r.Pedido).getD r) =
        (recs.foldl upsertOne df).map id := List.map_congr_left hid
    rw [hmap, List.map_id]

/-- C1 witness: idempotence at a concrete non-empty table. -/
theorem upsert_many_idem_witness :
    (upsert_many (upsert_many [mkRec "1" "a"] [mkRec "2" "b"]).1 [mkRec "2" "b"]).1 =
      (upsert_many [mkRec "1" "a"] [mkRec "2" "b"]).1 :=
  upsert_many_idem [mkRec "1" "a"] [mkRec "2" "b"] (Or.inl (by decide))

/-- C2 counterexample: upserting two records with the same `Pedido` but
different fields into an empty table keeps both rows, so the earlier
record also survives as a row for that key, contradicting the claim
that the later record alone determines the row content regardless of
whether the table was empty. -/
theorem upsert_last_wins_fails_on_empty :
    mkRec "1" "a" ∈ (upsert_many [] [mkRec "1" "a", mkRec "1" "b"]).1 ∧
      (mkRec "1" "a").Pedido = (mkRec "1" "b").Pedido ∧
      mkRec "1" "a" ≠ mkRec "1" "b" := by
  decide

/-- C2 (amended): provided the table is non-empty before the upsert,
every final row carrying a key equals the last incoming record with
that key, and such a row exists. -/
theorem upsert_last_wins (df recs : List OrderRec) (hdf : df ≠ [])
    (k : String) (x : OrderRec) (hx : lastWith recs k = some x) :
    (∀ r ∈ (upsert_many df recs).1, r.Pedido = k → r = x) ∧
      (∃ r ∈ (upsert_many df recs).1, r.Pedido = k) := by
  have h1 : (upsert_many df recs).1 = recs.foldl upsertOne df := by
    unfold upsert_many
    rw [if_neg hdf]
    exact foldl_upsert_step_fst recs df 0 0
  rw [h1]
  constructor
  · intro r hr hrk
    apply rows_agree_with_last recs df r x hr
    rw [hrk]
    exact hx
  · have hxk : x.Pedido = k := lastWith_key hx
    have hmem : x ∈ recs := lastWith_mem hx
    have hpres := key_present_after_fold recs df x hmem
    obtain ⟨r, hr, hrk⟩ := (hasKey_iff _ _).mp hpres
    exact ⟨r, hr, by rw [hrk, hxk]⟩

/-- C2 witness: with a non-empty table, the later of two same-key records
ends up in the final table. -/
theorem upsert_last_wins_witness :
    mkRec "1" "b" ∈ (upsert_many [mkRec "0" "z"] [mkRec "1" "a", mkRec "1" "b"]).1 := by
  obtain ⟨hall, r, hr, hrk⟩ :=
    upsert_last_wins [mkRec "0" "z"] [mkRec "1" "a", mkRec "1" "b"] (by decide)
      "1" (mkRec "1" "b") (by decide)
  have := hall r hr hrk
  rwa [this] at hr

/-- C3 counterexample: when the table already holds two rows with the
same key, an upsert of that key overwrites both rows, not just the
first match; the second row does not stay unchanged. -/
theorem upsert_overwrites_beyond_first_match :
    (upsert_many [mkRec "1" "a", mkRec "1" "b"] [mkRec "1" "c"]).1 =
        [mkRec "1" "c", mkRec "1" "c"] ∧
      mkRec "1" "c" ≠ mkRec "1" "b" := by
  decide

/-- C3 (amended): upserting one record whose key is present overwrites
every matching row with all nine fields of the record, leaves every
non-matching row unchanged in place, and appends nothing. -/
theorem upsert_overwrites_all_matches (df : List OrderRec) (rec : OrderRec)
    (hdf : df ≠ []) (hk : hasKey df rec.Pedido = true) :
    (upsert_many df [rec]).1.length = df.length ∧
      ∀ i r r', df.get? i = some r → (upsert_many df [rec]).1.get? i = some r' →
        (r.Pedido = rec.Pedido → r' = rec) ∧ (r.Pedido ≠ rec.Pedido → r' = r) := by
  have h1 : (upsert_many df [rec]).1 = upsertOne df rec := by
    unfold upsert_many
    rw [if_neg hdf]
    exact foldl_upsert_step_fst [rec] df 0 0
  have h2 : upsertOne df rec = df.map (fun r => if r.Pedido = rec.Pedido then rec else r) := by
    unfold upsertOne
    rw [if_pos hk]
  rw [h1, h2]
  constructor
  · exact List.length_map df _
  · intro i r r' hi hi'
    rw [List.get?_map, hi] at hi'
    have hr' : r' = if r.Pedido = rec.Pedido then rec else r := by
      injection hi' with h
      exact h.symm
    constructor
    · intro hp
      rw [hr', if_pos hp]
    · intro hp
      rw [hr', if_neg hp]

/-- C3 witness: overwrite of a present key keeps the table length. -/
theorem upsert_overwrites_all_matches_witness :
    (upsert_many [mkRec "1" "a", mkRec "2" "b"] [mkRec "1" "c"]).1.length = 2 := by
  have h := upsert_overwrites_all_matches [mkRec "1" "a", mkRec "2" "b"] (mkRec "1" "c")
    (by decide) (by decide)
  simpa using h.1

/-! ## Date normalization (parse_to_date in app.py) -/

/-- Decimal digit character for `n` (expects `n < 10`). -/
def digitChar (n : Nat) : Char :=
  Char.ofNat (48 + n)

/-- Two-digit zero-padded rendering (strftime `%m` / `%d`). -/
def pad2 (n : Nat) : List Char :=
  [digitChar (n / 10 % 10), digitChar (n % 10)]

/-- Four-digit zero-padded rendering (strftime `%Y` for years up to 9999). -/
def pad4 (n : Nat) : List Char :=
  [digitChar (n / 1000 % 10), digitChar (n / 100 % 10),
   digitChar (n / 10 % 10), digitChar (n % 10)]

/-- The year as rendered by CPython `strftime("%Y")` on Linux: plain
decimal digits without zero padding (years are at most 9999). -/
def yearChars (y : Nat) : List Char :=
  if y < 10 then [digitChar y]
  else if y < 100 then [digitChar (y / 10), digitChar (y % 10)]
  else if y < 1000 then [digitChar (y / 100), digitChar (y / 10 % 10), digitChar (y % 10)]
  else pad4 y

/-- The `dt.strftime("%Y-%m-%d")` output of app.py. -/
def formatDate (y m d : Nat) : String :=
  String.mk (yearChars y ++ '-' :: (pad2 m ++ '-' :: pad2 d))

/-- Numeric value of a digit string. -/
def digitsVal (l : List Char) : Nat :=
  l.foldl (fun a c => a * 10 + (c.toNat - 48)) 0

/-- Gregorian leap-year rule used by Python `datetime`. -/
def isLeap (y : Nat) : Bool :=
  (y % 4 = 0 && y % 100 ≠ 0) || y % 400 = 0

def daysInMonth (y m : Nat) : Nat :=
  if m = 2 then (if isLeap y then 29 else 28)
  else if m = 4 || m = 6 || m = 9 || m = 11 then 30
  else 31

/-- Validity of a (year, month, day) triple for Python `datetime`:
year 1..9999, month 1..12, day within the month. -/
def validDate (y m d : Nat) : Bool :=
  decide (1 ≤ y) && decide (y ≤ 9999) && decide (1 ≤ m) && decide (m ≤ 12) &&
    decide (1 ≤ d) && decide (d ≤ daysInMonth y m)

/-- `datetime.strptime(s, "%Y%m%d")` on an 8-character candidate: four
digit year, two digit month, two digit day, all checked for calendar
validity. -/
def strptimeYmd8 : List Char → Option (Nat × Nat × Nat)
  | [a, b, c, d, e, f, g, h] =>
    if [a, b, c, d, e, f, g, h].all Char.isDigit then
      if validDate (digitsVal [a, b, c, d]) (digitsVal [e, f]) (digitsVal [g, h]) then
        some (digitsVal [a, b, c, d], digitsVal [e, f], digitsVal [g, h])
      else none
    else none
  | _ => none

/-- `datetime.strptime(s, "%d%m%Y")` on an 8-character candidate. -/
def strptimeDmY8 : List Char → Option (Nat × Nat × Nat)
  | [a, b, c, d, e, f, g, h] =>
    if [a, b, c, d, e, f, g, h].all Char.isDigit then
      if validDate (digitsVal [e, f, g, h]) (digitsVal [c, d]) (digitsVal [a, b]) then
        some (digitsVal [e, f, g, h], digitsVal [c, d], digitsVal [a, b])
      else none
    else none
  | _ => none

/-- The apostrophe character, written numerically. -/
def quoteChar : Char :=
  Char.ofNat 39

/-- The literal prefix of the regex `TO_DATE\x28...` pattern in app.py. -/
def toDatePat1 : List Char :=
  ['T', 'O', '_', 'D', 'A', 'T', 'E', '(', quoteChar]

/-- The literal suffix of the `TO_DATE` pattern: quote, comma, quoted
DDMMYYYY marker and closing parenthesis. -/
def toDatePat2 : List Char :=
  [quoteChar, ',', quoteChar, 'D', 'D', 'M', 'M', 'Y', 'Y', 'Y', 'Y', quoteChar, ')']

/-- Does the `TO_DATE` regex match at the start of `s`?  On success
returns the eight captured digits. -/
def matchTO (s : List Char) : Option (List Char) :=
  if s.take 9 = toDatePat1 then
    let rest := s.drop 9
    let digs := rest.take 8
    if digs.length = 8 && digs.all Char.isDigit && (rest.drop 8).take 13 = toDatePat2 then
      some digs
    else none
  else none

/-- `re.search` for the `TO_DATE` pattern: try every start position from
the left. -/
def toDateSearch : List Char → Option (List Char)
  | [] => none
  | c :: cs =>
    match matchTO (c :: cs) with
    | some d => some d
    | none => toDateSearch cs

/-- Python `str.split(sep)` for a one-character separator. -/
def splitOnC (sep : Char) : List Char → List (List Char)
  | [] => [[]]
  | c :: rest =>
    if c = sep then [] :: splitOnC sep rest
    else
      match splitOnC sep rest with
      | p :: ps => (c :: p) :: ps
      | [] => [[c]]

/-- `datetime.strptime` against a three-field separated date format:
year field is exactly four digits, month and day fields are one or two
digits, and the triple must be calendar-valid.  `yFirst` selects
year-month-day versus day-month-year field order. -/
def parseYMDparts (ys ms ds : List Char) : Option (Nat × Nat × Nat) :=
  if ys.length = 4 && ys.all Char.isDigit &&
      (ms.length = 1 || ms.length = 2) && ms.all Char.isDigit &&
      (ds.length = 1 || ds.length = 2) && ds.all Char.isDigit &&
      validDate (digitsVal ys) (digitsVal ms) (digitsVal ds) then
    some (digitsVal ys, digitsVal ms, digitsVal ds)
  else none

def parseFmt (yFirst : Bool) (sep : Char) (l : List Char) : Option (Nat × Nat × Nat) :=
  match splitOnC sep l with
  | [p1, p2, p3] =>
    parseYMDparts (if yFirst then p1 else p3) p2 (if yFirst then p3 else p1)
  | _ => none

/-- The loop over `("%Y-%m-%d", "%d/%m/%Y", "%d-%m-%Y", "%Y/%m/%d")` in
`parse_to_date`, first match wins. -/
def tryNormalFormats (l : List Char) : Option (Nat × Nat × Nat) :=
  match parseFmt true '-' l with
  | some d => some d
  | none =>
    match parseFmt false '/' l with
    | some d => some d
    | none =>
      match parseFmt false '-' l with
      | some d => some d
      | none => parseFmt true '/' l

/-- Embedding of `parse_to_date` from app.py.  Empty input returns the
empty string; the input is stripped; a `TO_DATE` wrapper is parsed as
day-month-year (and yields the empty string when invalid); a bare
8-digit string is tried as year-month-day then day-month-year; four
separated formats are tried next; otherwise the stripped input is
returned unchanged. -/
def parse_to_date (raw : String) : String :=
  if raw.data = [] then ""
  else
    match toDateSearch (stripL raw.data) with
    | some digs =>
      match strptimeDmY8 digs with
      | some (y, m, d) => formatDate y m d
      | none => ""
    | none =>
      if (stripL raw.data).length = 8 && (stripL raw.data).all Char.isDigit then
        match strptimeYmd8 (stripL raw.data) with
        | some (y, m, d) => formatDate y m d
        | none =>
          match strptimeDmY8 (stripL raw.data) with
          | some (y, m, d) => formatDate y m d
          | none => String.mk (stripL raw.data)
      else
        match tryNormalFormats (stripL raw.data) with
        | some (y, m, d) => formatDate y m d
        | none => String.mk (stripL raw.data)

/-! ## Properties of the date parser -/

theorem digitChar_noSpace {k : Nat} (h : k < 10) : isPySpace (digitChar k) = false := by
  interval_cases k <;> decide

theorem mem_pad2_noSpace (n : Nat) : ∀ c ∈ pad2 n, isPySpace c = false := by
  intro c hc
  unfold pad2 at hc
  rcases List.mem_cons.mp hc with rfl | hc2
  · exact digitChar_noSpace (Nat.mod_lt _ (by norm_num))
  · rcases List.mem_cons.mp hc2 with rfl | hc3
    · exact digitChar_noSpace (Nat.mod_lt _ (by norm_num))
    · simp at hc3

theorem mem_pad4_noSpace (n : Nat) : ∀ c ∈ pad4 n, isPySpace c = false := by
  intro c hc
  unfold pad4 at hc
  rcases List.mem_cons.mp hc with rfl | hc2
  · exact digitChar_noSpace (Nat.mod_lt _ (by norm_num))
  · rcases List.mem_cons.mp hc2 with rfl | hc3
    · exact digitChar_noSpace (Nat.mod_lt _ (by norm_num))
    · rcases List.mem_cons.mp hc3 with rfl | hc4
      · exact digitChar_noSpace (Nat.mod_lt _ (by norm_num))
      · rcases List.mem_cons.mp hc4 with rfl | hc5
        · exact digitChar_noSpace (Nat.mod_lt _ (by norm_num))
        · simp at hc5

theorem mem_yearChars_noSpace (y : Nat) : ∀ c ∈ yearChars y, isPySpace c = false := by
  intro c hc
  unfold yearChars at hc
  by_cases h1 : y < 10
  · rw [if_pos h1] at hc
    rcases List.mem_cons.mp hc with rfl | h
    · exact digitChar_noSpace h1
    · simp at h
  · rw [if_neg h1] at hc
    by_cases h2 : y < 100
    · rw [if_pos h2] at hc
      rcases List.mem_cons.mp hc with rfl | h
      · exact digitChar_noSpace (Nat.div_lt_of_lt_mul (by omega))
      · rcases List.mem_cons.mp h with rfl | h3
        · exact digitChar_noSpace (Nat.mod_lt _ (by norm_num))
        · simp at h3
    · rw [if_neg h2] at hc
      by_cases h3 : y < 1000
      · rw [if_pos h3] at hc
        rcases List.mem_cons.mp hc with rfl | h
        · exact digitChar_noSpace (Nat.div_lt_of_lt_mul (by omega))
        · rcases List.mem_cons.mp h with rfl | h4
          · exact digitChar_noSpace (Nat.mod_lt _ (by norm_num))
          · rcases List.mem_cons.mp h4 with rfl | h5
            · exact digitChar_noSpace (Nat.mod_lt _ (by norm_num))
            · simp at h5
      · rw [if_neg h3] at hc
        exact mem_pad4_noSpace y c hc

theorem formatDate_data (y m d : Nat) :
    (formatDate y m d).data = yearChars y ++ '-' :: (pad2 m ++ '-' :: pad2 d) := rfl

theorem formatDate_noSpace (y m d : Nat) :
    ∀ c ∈ (formatDate y m d).data, isPySpace c = false := by
  rw [formatDate_data]
  intro c hc
  rcases List.mem_append.mp hc with h | h
  · exact mem_yearChars_noSpace y c h
  · rcases List.mem_cons.mp h with rfl | h2
    · decide
    · rcases List.mem_append.mp h2 with h3 | h4
      · exact mem_pad2_noSpace m c h3
      · rcases List.mem_cons.mp h4 with rfl | h5
        · decide
        · exact mem_pad2_noSpace d c h5

theorem yearChars_ne_nil (y : Nat) : yearChars y ≠ [] := by
  unfold yearChars
  split
  · simp
  · split
    · simp
    · split
      · simp
      · simp [pad4]

theorem formatDate_ne_empty (y m d : Nat) : formatDate y m d ≠ "" := by
  intro h
  have hd := congrArg String.data h
  rw [formatDate_data] at hd
  have : yearChars y = [] ∧ ('-' :: (pad2 m ++ '-' :: pad2 d) : List Char) = [] :=
    List.append_eq_nil.mp hd
  exact absurd this.2 (by simp)

theorem formatDate_trimmed (y m d : Nat) :
    pyStrip (formatDate y m d) = formatDate y m d := by
  show String.mk (stripL (formatDate y m d).data) = formatDate y m d
  rw [stripL_noSpace (formatDate_noSpace y m d)]

theorem strptimeYmd8_valid {l : List Char} {y m d : Nat}
    (h : strptimeYmd8 l = some (y, m, d)) : validDate y m d = true := by
  unfold strptimeYmd8 at h
  split at h
  · split_ifs at h with hd hv
    · injection h with h1
      cases h1
      exact hv
  · simp at h

theorem strptimeDmY8_valid {l : List Char} {y m d : Nat}
    (h : strptimeDmY8 l = some (y, m, d)) : validDate y m d = true := by
  unfold strptimeDmY8 at h
  split at h
  · split_ifs at h with hd hv
    · injection h with h1
      cases h1
      exact hv
  · simp at h

theorem parseYMDparts_valid {ys ms ds : List Char} {y m d : Nat}
    (h : parseYMDparts ys ms ds = some (y, m, d)) : validDate y m d = true := by
  unfold parseYMDparts at h
  split_ifs at h with hc
  injection h with h1
  cases h1
  simp only [Bool.and_eq_true] at hc
  exact hc.2

theorem parseFmt_valid {yf : Bool} {sep : Char} {l : List Char} {y m d : Nat}
    (h : parseFmt yf sep l = some (y, m, d)) : validDate y m d = true := by
  unfold parseFmt at h
  split at h
  · exact parseYMDparts_valid h
  · simp at h

theorem tryNormalFormats_valid {l : List Char} {y m d : Nat}
    (h : tryNormalFormats l = some (y, m, d)) : validDate y m d = true := by
  unfold tryNormalFormats at h
  cases h1 : parseFmt true '-' l with
  | some t =>
    rw [h1] at h
    injection h with h2
    rw [h2] at h1
    exact parseFmt_valid h1
  | none =>
    rw [h1] at h
    cases h2 : parseFmt false '/' l with
    | some t =>
      rw [h2] at h
      injection h with h3
      rw [h3] at h2
      exact parseFmt_valid h2
    | none =>
      rw [h2] at h
      cases h3 : parseFmt false '-' l with
      | some t =>
        rw [h3] at h
        injection h with h4
        rw [h4] at h3
        exact parseFmt_valid h3
      | none =>
        rw [h3] at h
        exact parseFmt_valid h

/-- Branch reduction: a successful `TO_DATE` search. -/
theorem parse_to_date_toDate_branch (raw : String) (h0 : raw.data ≠ [])
    {digs : List Char} (hTD : toDateSearch (stripL raw.data) = some digs) :
    parse_to_date raw =
      (match strptimeDmY8 digs with
       | some (y, m, d) => formatDate y m d
       | none => "") := by
  unfold parse_to_date
  rw [if_neg h0, hTD]

/-- Branch reduction: no `TO_DATE` match. -/
theorem parse_to_date_no_toDate (raw : String) (h0 : raw.data ≠ [])
    (hTD : toDateSearch (stripL raw.data) = none) :
    parse_to_date raw =
      (if (stripL raw.data).length = 8 && (stripL raw.data).all Char.isDigit then
        match strptimeYmd8 (stripL raw.data) with
        | some (y, m, d) => formatDate y m d
        | none =>
          match strptimeDmY8 (stripL raw.data) with
          | some (y, m, d) => formatDate y m d
          | none => String.mk (stripL raw.data)
      else
        match tryNormalFormats (stripL raw.data) with
        | some (y, m, d) => formatDate y m d
        | none => String.mk (stripL raw.data)) := by
  unfold parse_to_date
  rw [if_neg h0, hTD]

theorem digit_noSpace {c : Char} (h : c.isDigit = true) : isPySpace c = false := by
  by_contra hx
  rw [Bool.not_eq_false] at hx
  unfold isPySpace at hx
  simp only [Bool.or_eq_true, decide_eq_true_eq] at hx
  rcases hx with ((((h1 | h1) | h1) | h1) | h1) | h1 <;>
    · subst h1
      exact absurd h (by decide)

theorem toDateSearch_digits_none :
    ∀ l : List Char, (∀ c ∈ l, c.isDigit = true) → toDateSearch l = none := by
  intro l
  induction l with
  | nil => intro _; rfl
  | cons c cs ih =>
    intro h
    have hc : c.isDigit = true := h c (List.mem_cons_self c cs)
    have hm : matchTO (c :: cs) = none := by
      unfold matchTO
      rw [if_neg ?_]
      intro he
      rw [List.take_succ_cons] at he
      rw [show toDatePat1 = 'T' :: ['O', '_', 'D', 'A', 'T', 'E', '(', quoteChar] from rfl] at he
      have hcT : c = 'T' := by injection he
      rw [hcT] at hc
      exact absurd hc (by decide)
    unfold toDateSearch
    rw [hm]
    exact ih (fun x hx => h x (List.mem_cons_of_mem c hx))

/-- C4 counterexample: a `TO_DATE` wrapper whose eight digits are not a
valid day-month-year date yields the empty string, not the input
verbatim; and unmatched input is returned stripped, not verbatim. -/
theorem parse_to_date_not_verbatim :
    parse_to_date (String.mk (toDatePat1 ++
        ['9', '9', '9', '9', '9', '9', '9', '9'] ++ toDatePat2)) ≠
      String.mk (toDatePat1 ++ ['9', '9', '9', '9', '9', '9', '9', '9'] ++ toDatePat2) ∧
      parse_to_date " x " ≠ " x " := by
  constructor
  · decide
  · decide

/-- C4 (amended): `parse_to_date` is total and never fails: every input
yields either a rendering of a calendar-valid date, or the
whitespace-stripped input passed through, or the empty string, and the
empty string arises only from blank input or from a `TO_DATE` wrapper
whose eight digits are not a valid day-month-year date. -/
theorem parse_to_date_total (raw : String) :
    (parse_to_date raw = "" ∨
      (∃ y m d, validDate y m d = true ∧ parse_to_date raw = formatDate y m d) ∨
      parse_to_date raw = pyStrip raw) ∧
    (parse_to_date raw = "" →
      pyStrip raw = "" ∨
        ∃ digs, toDateSearch (pyStrip raw).data = some digs ∧ strptimeDmY8 digs = none) := by
  by_cases h0 : raw.data = []
  · have he : parse_to_date raw = "" := by
      unfold parse_to_date
      rw [if_pos h0]
    have hs : pyStrip raw = "" := by
      unfold pyStrip
      rw [h0]
      rfl
    exact ⟨Or.inl he, fun _ => Or.inl hs⟩
  · have hdata : (pyStrip raw).data = stripL raw.data := rfl
    cases hTD : toDateSearch (stripL raw.data) with
    | some digs =>
      have hbr := parse_to_date_toDate_branch raw h0 hTD
      cases hP : strptimeDmY8 digs with
      | some t =>
        obtain ⟨y, md⟩ := t
        obtain ⟨m, d⟩ := md
        rw [hP] at hbr
        have hval := strptimeDmY8_valid hP
        refine ⟨Or.inr (Or.inl ⟨y, m, d, hval, hbr⟩), ?_⟩
        intro hemp
        rw [hbr] at hemp
        exact absurd hemp (formatDate_ne_empty y m d)
      | none =>
        rw [hP] at hbr
        refine ⟨Or.inl hbr, fun _ => Or.inr ⟨digs, ?_, hP⟩⟩
        rw [hdata]
        exact hTD
    | none =>
      have hbr := parse_to_date_no_toDate raw h0 hTD
      have hmkstr : String.mk (stripL raw.data) = pyStrip raw := rfl
      by_cases h8 : ((stripL raw.data).length = 8 && (stripL raw.data).all Char.isDigit) = true
      · rw [if_pos h8] at hbr
        cases hY : strptimeYmd8 (stripL raw.data) with
        | some t =>
          obtain ⟨y, md⟩ := t
          obtain ⟨m, d⟩ := md
          rw [hY] at hbr
          have hval := strptimeYmd8_valid hY
          refine ⟨Or.inr (Or.inl ⟨y, m, d, hval, hbr⟩), ?_⟩
          intro hemp
          rw [hbr] at hemp
          exact absurd hemp (formatDate_ne_empty y m d)
        | none =>
          rw [hY] at hbr
          cases hD : strptimeDmY8 (stripL raw.data) with
          | some t =>
            obtain ⟨y, md⟩ := t
            obtain ⟨m, d⟩ := md
            rw [hD] at hbr
            have hval := strptimeDmY8_valid hD
            refine ⟨Or.inr (Or.inl ⟨y, m, d, hval, hbr⟩), ?_⟩
            intro hemp
            rw [hbr] at hemp
            exact absurd hemp (formatDate_ne_empty y m d)
          | none =>
            rw [hD, hmkstr] at hbr
            have hbr2 : parse_to_date raw = pyStrip raw := hbr
            exact ⟨Or.inr (Or.inr hbr2), fun hemp => Or.inl (hbr2.symm.trans hemp)⟩
      · rw [if_neg h8] at hbr
        cases hF : tryNormalFormats (stripL raw.data) with
        | some t =>
          obtain ⟨y, md⟩ := t
          obtain ⟨m, d⟩ := md
          rw [hF] at hbr
          have hval := tryNormalFormats_valid hF
          refine ⟨Or.inr (Or.inl ⟨y, m, d, hval, hbr⟩), ?_⟩
          intro hemp
          rw [hbr] at hemp
          exact absurd hemp (formatDate_ne_empty y m d)
        | none =>
          rw [hF, hmkstr] at hbr
          have hbr2 : parse_to_date raw = pyStrip raw := hbr
          exact ⟨Or.inr (Or.inr hbr2), fun hemp => Or.inl (hbr2.symm.trans hemp)⟩

/-- C4 witness: the totality statement instantiated at a blank input. -/
theorem parse_to_date_total_witness :
    pyStrip "" = "" ∨
      ∃ digs, toDateSearch (pyStrip "").data = some digs ∧ strptimeDmY8 digs = none :=
  (parse_to_date_total "").2 (by decide)

/-- C5: on a bare 8-digit string the year-month-day reading is tried
before day-month-year, as the two concrete examples show, and an
8-digit string valid under neither reading is returned unchanged. -/
theorem parse_to_date_eight_digit_order :
    parse_to_date "20251003" = "2025-10-03" ∧
      parse_to_date (String.mk (toDatePat1 ++
        ['0', '3', '1', '0', '2', '0', '2', '5'] ++ toDatePat2)) = "2025-10-03" ∧
      ∀ s : String, s.data.length = 8 → (∀ c ∈ s.data, c.isDigit = true) →
        strptimeYmd8 s.data = none → strptimeDmY8 s.data = none →
        parse_to_date s = s := by
  refine ⟨by decide, by decide, ?_⟩
  intro s hlen hdig hY hD
  have hne : s.data ≠ [] := by
    intro h
    rw [h] at hlen
    simp at hlen
  have hstrip : stripL s.data = s.data :=
    stripL_noSpace (fun c hc => digit_noSpace (hdig c hc))
  have hTD : toDateSearch (stripL s.data) = none := by
    rw [hstrip]
    exact toDateSearch_digits_none s.data hdig
  have hbr := parse_to_date_no_toDate s hne hTD
  rw [hstrip] at hbr
  have hcond : (s.data.length = 8 && s.data.all Char.isDigit) = true := by
    rw [Bool.and_eq_true]
    constructor
    · exact decide_eq_true hlen
    · rw [List.all_eq_true]
      exact hdig
  rw [if_pos hcond, hY, hD] at hbr
  rw [hbr]

/-- C5 witness: an 8-digit string valid under neither reading passes
through unchanged. -/
theorem parse_to_date_eight_digit_order_witness :
    parse_to_date "99999999" = "99999999" :=
  parse_to_date_eight_digit_order.2.2 "99999999" (by decide) (by decide)
    (by decide) (by decide)

/-! ## Pasted-text tokenizer (parse_azzas_blocks in admin_app.py) -/

/-- Python `replace("\r\n", "\n")`: left-to-right, non-overlapping. -/
def replaceCRLF : List Char → List Char
  | [] => []
  | [c] => [c]
  | c1 :: c2 :: rest =>
    if c1 = '\r' ∧ c2 = '\n' then '\n' :: replaceCRLF rest
    else c1 :: replaceCRLF (c2 :: rest)

/-- The normalization chain of `parse_azzas_blocks`: collapse CRLF to LF,
then lone CR to LF, then every LF to a tab. -/
def normalizeText (l : List Char) : List Char :=
  ((replaceCRLF l).map (fun c => if c = '\r' then '\n' else c)).map
    (fun c => if c = '\n' then '\t' else c)

/-- The token list: split the normalized text on tabs, strip each piece,
keep the non-empty ones. -/
def tokensOf (raw : String) : List String :=
  ((splitOnC '\t' (normalizeText raw.data)).map (fun p => String.mk (stripL p))).filter
    (fun t => t ≠ "")

/-- The two `ValueError` shapes raised by `parse_azzas_blocks`: empty
input, or a token count that is not a multiple of nine (carrying the
count found). -/
inductive ParseErr where
  | emptyInput : ParseErr
  | fieldCount : Nat → ParseErr
deriving DecidableEq, Repr

/-- The slicing loop `tokens[i:i+9]` for `i = 0, 9, 18, ...`: consecutive
groups of nine, the final group possibly shorter. -/
def chunks9 : List String → List (List String)
  | [] => []
  | a1 :: a2 :: a3 :: a4 :: a5 :: a6 :: a7 :: a8 :: a9 :: rest =>
    [a1, a2, a3, a4, a5, a6, a7, a8, a9] :: chunks9 rest
  | ts => [ts]

/-- Embedding of `parse_azzas_blocks`: empty or whitespace-only input is
an error; a token count that is not a multiple of nine is an error
carrying the count; otherwise each group of nine tokens is zipped
against the canonical columns into one record, preserving order. -/
def parse_azzas_blocks (raw : String) :
    Except ParseErr (List (List (String × String))) :=
  if stripL raw.data = [] then Except.error ParseErr.emptyInput
  else if (tokensOf raw).length % COLUMNS.length ≠ 0 then
    Except.error (ParseErr.fieldCount (tokensOf raw).length)
  else Except.ok ((chunks9 (tokensOf raw)).map (fun c => COLUMNS.zip c))

theorem stripL_eq_nil_iff (l : List Char) :
    stripL l = [] ↔ l.all isPySpace = true := by
  constructor
  · intro h
    rw [List.all_eq_true]
    intro c hc
    have h1 : (l.dropWhile isPySpace).reverse.dropWhile isPySpace = [] := by
      have hx : ((l.dropWhile isPySpace).reverse.dropWhile isPySpace).reverse = [] := h
      exact List.reverse_eq_nil_iff.mp hx
    have h2 : ∀ x ∈ (l.dropWhile isPySpace).reverse, isPySpace x = true := by
      rw [← List.dropWhile_eq_nil_iff]
      exact h1
    have h3 : ∀ x ∈ l.dropWhile isPySpace, isPySpace x = true := by
      intro x hx
      exact h2 x (List.mem_reverse.mpr hx)
    have hsplit : List.takeWhile isPySpace l ++ List.dropWhile isPySpace l = l :=
      List.takeWhile_append_dropWhile isPySpace l
    rw [← hsplit] at hc
    rcases List.mem_append.mp hc with h4 | h4
    · exact List.mem_takeWhile_imp h4
    · exact h3 c h4
  · intro h
    exact stripL_all_space (fun c hc => List.all_eq_true.mp h c hc)

theorem space_map_r (c : Char) :
    isPySpace (if c = '\r' then '\n' else c) = isPySpace c := by
  by_cases h : c = '\r'
  · subst h
    decide
  · rw [if_neg h]

theorem space_map_n (c : Char) :
    isPySpace (if c = '\n' then '\t' else c) = isPySpace c := by
  by_cases h : c = '\n'
  · subst h
    decide
  · rw [if_neg h]

theorem replaceCRLF_mem (l : List Char) :
    ∀ c ∈ replaceCRLF l, c ∈ l ∨ c = '\n' := by
  generalize hn : l.length = n
  induction n using Nat.strong_induction_on generalizing l with
  | _ n ih =>
    cases l with
    | nil =>
      intro c hc
      simp [replaceCRLF] at hc
    | cons c1 rest1 =>
      cases rest1 with
      | nil =>
        intro c hc
        simp [replaceCRLF] at hc
        exact Or.inl (by simp [hc])
      | cons c2 rest =>
        intro c hc
        simp only [replaceCRLF] at hc
        by_cases hcr : c1 = '\r' ∧ c2 = '\n'
        · rw [if_pos hcr] at hc
          rcases List.mem_cons.mp hc with rfl | h2
          · exact Or.inr rfl
          · have hlt : rest.length < n := by
              rw [← hn]
              simp
              omega
            rcases ih rest.length hlt rest rfl c h2 with h3 | h3
            · exact Or.inl (by simp [h3])
            · exact Or.inr h3
        · rw [if_neg hcr] at hc
          rcases List.mem_cons.mp hc with rfl | h2
          · exact Or.inl (List.mem_cons_self _ _)
          · have hlt : (c2 :: rest).length < n := by
              rw [← hn]
              simp
            rcases ih (c2 :: rest).length hlt (c2 :: rest) rfl c h2 with h3 | h3
            · exact Or.inl (List.mem_cons_of_mem _ h3)
            · exact Or.inr h3

theorem normalizeText_space {l : List Char} (h : ∀ c ∈ l, isPySpace c = true) :
    ∀ c ∈ normalizeText l, isPySpace c = true := by
  intro c hc
  unfold normalizeText at hc
  obtain ⟨b, hb, rfl⟩ := List.mem_map.mp hc
  obtain ⟨a, ha, rfl⟩ := List.mem_map.mp hb
  rw [space_map_n, space_map_r]
  rcases replaceCRLF_mem l a ha with h1 | rfl
  · exact h a h1
  · decide

theorem splitOnC_mem {sep : Char} :
    ∀ (l : List Char) (p : List Char), p ∈ splitOnC sep l → ∀ c ∈ p, c ∈ l := by
  intro l
  induction l with
  | nil =>
    intro p hp c hc
    simp [splitOnC] at hp
    subst hp
    simp at hc
  | cons a rest ih =>
    intro p hp c hc
    unfold splitOnC at hp
    by_cases ha : a = sep
    · rw [if_pos ha] at hp
      rcases List.mem_cons.mp hp with rfl | h2
      · simp at hc
      · exact List.mem_cons_of_mem a (ih p h2 c hc)
    · rw [if_neg ha] at hp
      cases hsp : splitOnC sep rest with
      | nil =>
        rw [hsp] at hp
        rcases List.mem_cons.mp hp with rfl | h2
        · rcases List.mem_cons.mp hc with rfl | h3
          · exact List.mem_cons_self _ _
          · simp at h3
        · simp at h2
      | cons q qs =>
        rw [hsp] at hp
        rcases List.mem_cons.mp hp with rfl | h2
        · rcases List.mem_cons.mp hc with rfl | h3
          · exact List.mem_cons_self _ _
          · exact List.mem_cons_of_mem a
              (ih q (by rw [hsp]; exact List.mem_cons_self q qs) c h3)
        · exact List.mem_cons_of_mem a
            (ih p (by rw [hsp]; exact List.mem_cons_of_mem q h2) c hc)

theorem tokensOf_nil_of_space (raw : String) (h : raw.data.all isPySpace = true) :
    tokensOf raw = [] := by
  unfold tokensOf
  rw [List.filter_eq_nil_iff]
  intro t ht
  obtain ⟨p, hp, rfl⟩ := List.mem_map.mp ht
  have hps : ∀ c ∈ p, isPySpace c = true := by
    intro c hc
    have hcl : c ∈ normalizeText raw.data := splitOnC_mem _ p hp c hc
    exact normalizeText_space (fun x hx => List.all_eq_true.mp h x hx) c hcl
  simp [stripL_all_space hps]

/-- C6: the tokenizer fails with the empty-input error exactly on blank
or whitespace-only input, fails with the field-count error exactly when
the trimmed non-empty token count of non-blank input is not a multiple
of nine (the error carrying that count), and succeeds on every other
input. -/
theorem parse_azzas_blocks_errors (raw : String) :
    (parse_azzas_blocks raw = Except.error ParseErr.emptyInput ↔
      raw.data.all isPySpace = true) ∧
    (∀ n, parse_azzas_blocks raw = Except.error (ParseErr.fieldCount n) ↔
      raw.data.all isPySpace = false ∧ n = (tokensOf raw).length ∧
        (tokensOf raw).length % 9 ≠ 0) ∧
    ((∃ recs, parse_azzas_blocks raw = Except.ok recs) ↔
      raw.data.all isPySpace = false ∧ (tokensOf raw).length % 9 = 0) := by
  have hcols : COLUMNS.length = 9 := rfl
  by_cases hsp : stripL raw.data = []
  · have hall : raw.data.all isPySpace = true := (stripL_eq_nil_iff _).mp hsp
    have hres : parse_azzas_blocks raw = Except.error ParseErr.emptyInput := by
      unfold parse_azzas_blocks
      rw [if_pos hsp]
    refine ⟨⟨fun _ => hall, fun _ => hres⟩, ?_, ?_⟩
    · intro n
      constructor
      · intro h
        rw [hres] at h
        simp at h
      · rintro ⟨hfalse, -, -⟩
        rw [hall] at hfalse
        cases hfalse
    · constructor
      · rintro ⟨recs, h⟩
        rw [hres] at h
        simp at h
      · rintro ⟨hfalse, -⟩
        rw [hall] at hfalse
        cases hfalse
  · have hall : raw.data.all isPySpace = false := by
      cases hb : raw.data.all isPySpace
      · rfl
      · exact absurd ((stripL_eq_nil_iff _).mpr hb) hsp
    by_cases hmod : (tokensOf raw).length % 9 = 0
    · have hres : parse_azzas_blocks raw =
          Except.ok ((chunks9 (tokensOf raw)).map (fun c => COLUMNS.zip c)) := by
        unfold parse_azzas_blocks
        rw [if_neg hsp, if_neg (by rw [hcols]; exact fun h => h hmod)]
      refine ⟨?_, ?_, ?_⟩
      · constructor
        · intro h
          rw [hres] at h
          simp at h
        · intro h
          rw [h] at hall
          cases hall
      · intro n
        constructor
        · intro h
          rw [hres] at h
          simp at h
        · rintro ⟨-, -, hbad⟩
          exact absurd hmod hbad
      · exact ⟨fun _ => ⟨hall, hmod⟩, fun _ => ⟨_, hres⟩⟩
    · have hres : parse_azzas_blocks raw =
          Except.error (ParseErr.fieldCount (tokensOf raw).length) := by
        unfold parse_azzas_blocks
        rw [if_neg hsp, if_pos (by rw [hcols]; exact hmod)]
      refine ⟨?_, ?_, ?_⟩
      · constructor
        · intro h
          rw [hres] at h
          simp at h
        · intro h
          rw [h] at hall
          cases hall
      · intro n
        constructor
        · intro h
          rw [hres] at h
          simp at h
          exact ⟨hall, h.symm, hmod⟩
        · rintro ⟨-, rfl, -⟩
          exact hres
      · constructor
        · rintro ⟨recs, h⟩
          rw [hres] at h
          simp at h
        · rintro ⟨-, hgood⟩
          exact absurd hgood hmod

/-- C6 witness: the empty string yields the empty-input error. -/
theorem parse_azzas_blocks_errors_witness :
    parse_azzas_blocks "" = Except.error ParseErr.emptyInput :=
  (parse_azzas_blocks_errors "").1.mpr (by decide)

/-- Chunking a list of length `9 * k` yields `k` groups, the `i`-th
being the slice from position `9 * i` of length nine. -/
theorem chunks9_spec :
    ∀ (k : Nat) (ts : List String), ts.length = 9 * k →
      (chunks9 ts).length = k ∧
        ∀ i, i < k → (chunks9 ts).get? i = some ((ts.drop (9 * i)).take 9) := by
  intro k
  induction k with
  | zero =>
    intro ts h
    have hnil : ts = [] := List.eq_nil_of_length_eq_zero (by omega)
    subst hnil
    exact ⟨rfl, fun i hi => absurd hi (by omega)⟩
  | succ k ih =>
    intro ts h
    rcases ts with - | ⟨a1, ts⟩
    · simp only [List.length_nil] at h
      omega
    rcases ts with - | ⟨a2, ts⟩
    · simp only [List.length_cons, List.length_nil] at h
      omega
    rcases ts with - | ⟨a3, ts⟩
    · simp only [List.length_cons, List.length_nil] at h
      omega
    rcases ts with - | ⟨a4, ts⟩
    · simp only [List.length_cons, List.length_nil] at h
      omega
    rcases ts with - | ⟨a5, ts⟩
    · simp only [List.length_cons, List.length_nil] at h
      omega
    rcases ts with - | ⟨a6, ts⟩
    · simp only [List.length_cons, List.length_nil] at h
      omega
    rcases ts with - | ⟨a7, ts⟩
    · simp only [List.length_cons, List.length_nil] at h
      omega
    rcases ts with - | ⟨a8, ts⟩
    · simp only [List.length_cons, List.length_nil] at h
      omega
    rcases ts with - | ⟨a9, ts⟩
    · simp only [List.length_cons, List.length_nil] at h
      omega
    have hts : ts.length = 9 * k := by
      simp only [List.length_cons] at h
      omega
    obtain ⟨ihlen, ihget⟩ := ih ts hts
    have hch : chunks9 (a1 :: a2 :: a3 :: a4 :: a5 :: a6 :: a7 :: a8 :: a9 :: ts) =
        [a1, a2, a3, a4, a5, a6, a7, a8, a9] :: chunks9 ts := rfl
    rw [hch]
    constructor
    · simp [ihlen]
    · intro i hi
      cases i with
      | zero => rfl
      | succ j =>
        have hj : j < k := by omega
        rw [List.get?_cons_succ, ihget j hj]
        have hdrop : (a1 :: a2 :: a3 :: a4 :: a5 :: a6 :: a7 :: a8 :: a9 :: ts).drop
            (9 * (j + 1)) = ts.drop (9 * j) := by
          have h9 : 9 * (j + 1) = 9 * j + 9 := by ring
          rw [h9]
          rfl
        rw [hdrop]

/-- C7: on input whose token count is 9k (k at least 1) the tokenizer
plus assembler succeeds with exactly k records, the i-th mapping the
nine canonical columns in canonical order to the i-th consecutive group
of nine tokens, in input order. -/
theorem parse_azzas_blocks_records (raw : String) (k : Nat) (hk : 1 ≤ k)
    (hlen : (tokensOf raw).length = 9 * k) :
    ∃ recs, parse_azzas_blocks raw = Except.ok recs ∧ recs.length = k ∧
      ∀ i, i < k →
        recs.get? i = some (COLUMNS.zip (((tokensOf raw).drop (9 * i)).take 9)) := by
  have htok : tokensOf raw ≠ [] := by
    intro h
    rw [h] at hlen
    simp at hlen
    omega
  have hsp : stripL raw.data ≠ [] := by
    intro h
    exact htok (tokensOf_nil_of_space raw ((stripL_eq_nil_iff _).mp h))
  have hmod : ¬((tokensOf raw).length % COLUMNS.length ≠ 0) := by
    intro hbad
    apply hbad
    rw [hlen]
    show 9 * k % 9 = 0
    simp [Nat.mul_mod_right]
  refine ⟨(chunks9 (tokensOf raw)).map (fun c => COLUMNS.zip c), ?_, ?_, ?_⟩
  · unfold parse_azzas_blocks
    rw [if_neg hsp, if_neg hmod]
  · obtain ⟨hl, -⟩ := chunks9_spec k (tokensOf raw) hlen
    simp [hl]
  · intro i hi
    obtain ⟨-, hg⟩ := chunks9_spec k (tokensOf raw) hlen
    rw [List.get?_map, hg i hi]
    rfl

/-- C7 witness: nine tab-separated tokens yield exactly the one expected
record. -/
theorem parse_azzas_blocks_records_witness :
    parse_azzas_blocks "a\tb\tc\td\te\tf\tg\th\ti" = Except.ok
      [[("Pedido", "a"), ("Emissao", "b"), ("Marca", "c"), ("Fabricante", "d"),
        ("Destino", "e"), ("Status", "f"), ("Qtd_Pedido", "g"), ("Qtd_Faturado", "h"),
        ("Alteracao", "i")]] := by
  obtain ⟨recs, hok, hlen, hget⟩ :=
    parse_azzas_blocks_records "a\tb\tc\td\te\tf\tg\th\ti" 1 (by decide) (by decide)
  have h0 := hget 0 (by omega)
  have hval : COLUMNS.zip (((tokensOf "a\tb\tc\td\te\tf\tg\th\ti").drop (9 * 0)).take 9) =
      [("Pedido", "a"), ("Emissao", "b"), ("Marca", "c"), ("Fabricante", "d"),
       ("Destino", "e"), ("Status", "f"), ("Qtd_Pedido", "g"), ("Qtd_Faturado", "h"),
       ("Alteracao", "i")] := by decide
  rw [hval] at h0
  cases recs with
  | nil => simp at hlen
  | cons x xs =>
    cases xs with
    | nil =>
      simp at h0
      rw [h0] at hok
      exact hok
    | cons y ys => simp at hlen

/-! ## XML row flattening and field derivation (parse_arezzo_xml in app.py) -/

/-- A Python dictionary value as used in the item rows: a string, or the
result of `float(...)` kept abstractly as the normalized numeric text
(`none` when the conversion failed). -/
inductive PyVal where
  | str : String → PyVal
  | numOpt : Option String → PyVal
deriving DecidableEq, Repr

/-- A Python dict with string keys, as an insertion-ordered association
list with unique keys. -/
abbrev Dict := List (String × PyVal)

def dictGet (d : Dict) (k : String) : Option PyVal :=
  (d.find? (fun p => p.1 == k)).map (fun p => p.2)

def dictHas (d : Dict) (k : String) : Bool :=
  d.any (fun p => p.1 == k)

/-- Python dict assignment `d[k] = v`: replace the value in place when
the key exists, append otherwise. -/
def dictSet (d : Dict) (k : String) (v : PyVal) : Dict :=
  if dictHas d k then d.map (fun p => if p.1 == k then (k, v) else p)
  else d ++ [(k, v)]

/-- `row.get(k, "")` for the string-valued fields read by the source. -/
def getStr (d : Dict) (k : String) : String :=
  match dictGet d k with
  | some (PyVal.str s) => s
  | _ => ""

/-- The dict comprehension over an `access` node:
`{elem.tag: (elem.text or "").strip() for elem in access}`. -/
def flattenAccess (access : List (String × Option String)) : Dict :=
  access.foldl (fun d p => dictSet d p.1 (PyVal.str (pyStrip (p.2.getD "")))) []

/-- The fixed status code table of app.py. -/
def STATUS_MAP : List (String × String) :=
  [("0", "Cadastrado"), ("1", "Alterado"), ("2", "Cancelado")]

/-- `STATUS_MAP.get(status_code, status_code)`. -/
def statusLookup (code : String) : String :=
  match STATUS_MAP.find? (fun p => p.1 == code) with
  | some p => p.2
  | none => code

/-- Modelled from the spec: the brand id to brand name table lives in the
read-facing app, which is not among the available sources; the spec
describes it as a fixed five-entry code-to-name lookup applied with
default-to-key, so the resolution is modelled over an arbitrary table. -/
def brandLookup (brand_map : List (String × String)) (code : String) : String :=
  match brand_map.find? (fun p => p.1 == code) with
  | some p => p.2
  | none => code

/-- Header rows: flatten the access node, then normalize `DT_EMISSAO`
and `PERIODO_ENTREGA` keeping the raw values alongside. -/
def deriveHeader (access : List (String × Option String)) : Dict :=
  let row := flattenAccess access
  let row := dictSet row "DT_EMISSAO_RAW" (PyVal.str (getStr row "DT_EMISSAO"))
  let row := dictSet row "DT_EMISSAO" (PyVal.str (parse_to_date (getStr row "DT_EMISSAO_RAW")))
  let row := dictSet row "PERIODO_ENTREGA_RAW" (PyVal.str (getStr row "PERIODO_ENTREGA"))
  dictSet row "PERIODO_ENTREGA" (PyVal.str (parse_to_date (getStr row "PERIODO_ENTREGA_RAW")))

/-- The header attributes copied onto each item row. -/
def HEADER_KEYS : List String :=
  ["PESSOA_FORNECEDOR", "PESSOA_AGENCIADOR", "NOME_AGENCIADOR", "CONDICAO_PAGTO",
   "DESC_COND_PAGTO", "PERIODO_ENTREGA", "PERIODO_ENTREGA_RAW", "DT_EMISSAO",
   "DT_EMISSAO_RAW", "MARCA_IDO"]

/-- The item date fields normalized in place with a `_RAW` copy. -/
def DATE_FIELDS : List String :=
  ["DT_PROG_ENTR", "DT_PLAN_ENTR_DE", "DT_PLAN_ENTR_ATE"]

/-- The item numeric fields receiving a `_NUM` companion. -/
def NUM_FIELDS : List String :=
  ["VALOR_UNIT_PRODUTO", "TL_REQU"]

/-- `val.replace(",", ".")`. -/
def replaceCommaDot (s : String) : String :=
  String.mk (s.data.map (fun c => if c = ',' then '.' else c))

/-- `desc_produto.split("|")[-1]`. -/
def lastBarPiece (s : String) : String :=
  String.mk ((splitOnC '|' s.data).getLastD [])

/-- One step of the header-into-item copy loop:
`if key in header_map and key not in row: row[key] = header_map.get(key, "")`. -/
def headerStep (header_map : Dict) (r : Dict) (key : String) : Dict :=
  if dictHas header_map key && !dictHas r key then
    dictSet r key ((dictGet header_map key).getD (PyVal.str ""))
  else r

/-- One step of the item date loop: store the raw value under `_RAW` and
the normalized date in place. -/
def dateStep (r : Dict) (f : String) : Dict :=
  dictSet (dictSet r (f ++ "_RAW") (PyVal.str (getStr r f)))
    f (PyVal.str (parse_to_date (getStr r f)))

/-- One step of the numeric loop: `float(val.replace(",", "."))` kept as
the normalized text on success, `None` on failure.  The success
predicate of Python `float` is abstracted as `floatOk`. -/
def numStep (floatOk : String → Bool) (r : Dict) (f : String) : Dict :=
  dictSet r (f ++ "_NUM")
    (PyVal.numOpt (if floatOk (replaceCommaDot (getStr r f)) then
      some (replaceCommaDot (getStr r f)) else none))

/-- One item row of `parse_arezzo_xml`: flatten the access node, copy
the header attributes down, resolve the status description, normalize
the three date fields, derive the color from the description text after
the last bar, and attach the two numeric companions. -/
def deriveItem (floatOk : String → Bool) (header_map : Dict)
    (access : List (String × Option String)) : Dict :=
  let row := flattenAccess access
  let row := HEADER_KEYS.foldl (headerStep header_map) row
  let row := dictSet row "STATUS_ITEM_PEDD_DESC"
    (PyVal.str (statusLookup (getStr row "STATUS_ITEM_PEDD")))
  let row := DATE_FIELDS.foldl dateStep row
  let row := dictSet row "COR"
    (PyVal.str (if (getStr row "DESC_PRODUTO").data.contains '|' then
      pyStrip (lastBarPiece (getStr row "DESC_PRODUTO")) else ""))
  NUM_FIELDS.foldl (numStep floatOk) row

/-- One grade or volume row: flatten the access node and attach the
`QUANTIDADE_NUM` companion. -/
def deriveGradeRow (floatOk : String → Bool)
    (access : List (String × Option String)) : Dict :=
  let row := flattenAccess access
  dictSet row "QUANTIDADE_NUM"
    (PyVal.numOpt (if floatOk (replaceCommaDot (getStr row "QUANTIDADE")) then
      some (replaceCommaDot (getStr row "QUANTIDADE")) else none))

/-! ## Dictionary lemmas -/

theorem find?_append_of_none {α : Type} (p : α → Bool) :
    ∀ (l1 l2 : List α), l1.find? p = none → (l1 ++ l2).find? p = l2.find? p := by
  intro l1 l2
  induction l1 with
  | nil => intro _; rfl
  | cons a rest ih =>
    intro h
    by_cases ha : p a
    · rw [List.find?_cons_of_pos _ ha] at h
      cases h
    · rw [List.find?_cons_of_neg _ ha] at h
      rw [List.cons_append, List.find?_cons_of_neg _ ha]
      exact ih h

theorem find?_append_of_some {α : Type} (p : α → Bool) :
    ∀ (l1 l2 : List α) (x : α), l1.find? p = some x → (l1 ++ l2).find? p = some x := by
  intro l1 l2
  induction l1 with
  | nil => intro x h; cases h
  | cons a rest ih =>
    intro x h
    by_cases ha : p a
    · rw [List.find?_cons_of_pos _ ha] at h
      rw [List.cons_append, List.find?_cons_of_pos _ ha]
      exact h
    · rw [List.find?_cons_of_neg _ ha] at h
      rw [List.cons_append, List.find?_cons_of_neg _ ha]
      exact ih x h

theorem find?_overwrite (k : String) (v : PyVal) :
    ∀ d : Dict, dictHas d k = true →
      (d.map (fun p => if p.1 == k then (k, v) else p)).find? (fun p => p.1 == k) =
        some (k, v) := by
  intro d
  induction d with
  | nil => intro h; simp [dictHas] at h
  | cons p rest ih =>
    intro h
    by_cases hp : (p.1 == k) = true
    · rw [List.map_cons, show (if p.1 == k then (k, v) else p) = (k, v) from if_pos hp]
      exact List.find?_cons_of_pos _ (by simp)
    · have h2 : dictHas rest k = true := by
        unfold dictHas at h
        rw [List.any_cons] at h
        rcases Bool.or_eq_true_iff.mp h with h3 | h3
        · exact absurd h3 hp
        · exact h3
      rw [List.map_cons, show (if p.1 == k then (k, v) else p) = p from if_neg hp]
      rw [show List.find? (fun q => q.1 == k)
          (p :: List.map (fun q => if q.1 == k then (k, v) else q) rest) =
          List.find? (fun q => q.1 == k)
            (List.map (fun q => if q.1 == k then (k, v) else q) rest) from
        List.find?_cons_of_neg _ hp]
      exact ih h2

theorem find?_overwrite_other (k kp : String) (v : PyVal) (h : kp ≠ k) :
    ∀ d : Dict,
      (d.map (fun p => if p.1 == kp then (kp, v) else p)).find? (fun p => p.1 == k) =
        d.find? (fun p => p.1 == k) := by
  intro d
  have hkk : (kp == k) = false := by
    rw [beq_eq_false_iff_ne]
    exact h
  induction d with
  | nil => rfl
  | cons p rest ih =>
    by_cases hp : (p.1 == kp) = true
    · rw [List.map_cons, show (if p.1 == kp then (kp, v) else p) = (kp, v) from if_pos hp]
      have hpk : (p.1 == k) = false := by
        have hpe : p.1 = kp := by
          rw [← beq_iff_eq]
          exact hp
        rw [hpe]
        exact hkk
      rw [List.find?_cons_of_neg _ (by simp [hkk]), List.find?_cons_of_neg _ (by simp [hpk])]
      exact ih
    · rw [List.map_cons, show (if p.1 == kp then (kp, v) else p) = p from if_neg hp]
      by_cases hpk : (p.1 == k) = true
      · rw [show List.find? (fun q => q.1 == k)
            (p :: List.map (fun q => if q.1 == kp then (kp, v) else q) rest) = some p from
          List.find?_cons_of_pos _ hpk,
          show List.find? (fun q => q.1 == k) (p :: rest) = some p from
          List.find?_cons_of_pos _ hpk]
      · rw [show List.find? (fun q => q.1 == k)
            (p :: List.map (fun q => if q.1 == kp then (kp, v) else q) rest) =
            List.find? (fun q => q.1 == k)
              (List.map (fun q => if q.1 == kp then (kp, v) else q) rest) from
          List.find?_cons_of_neg _ hpk,
          show List.find? (fun q => q.1 == k) (p :: rest) =
            List.find? (fun q => q.1 == k) rest from
          List.find?_cons_of_neg _ hpk]
        exact ih

theorem dictGet_set_self (d : Dict) (k : String) (v : PyVal) :
    dictGet (dictSet d k v) k = some v := by
  unfold dictSet
  by_cases h : dictHas d k
  · rw [if_pos h]
    unfold dictGet
    rw [find?_overwrite k v d h]
    rfl
  · rw [if_neg h]
    unfold dictGet
    have hfn : d.find? (fun p => p.1 == k) = none := by
      rw [List.find?_eq_none]
      intro p hp hpk
      apply h
      unfold dictHas
      rw [List.any_eq_true]
      exact ⟨p, hp, hpk⟩
    rw [find?_append_of_none _ d [(k, v)] hfn]
    simp [List.find?]

theorem dictGet_set_other (d : Dict) (kp : String) (v : PyVal) (k : String)
    (h : kp ≠ k) : dictGet (dictSet d kp v) k = dictGet d k := by
  unfold dictSet
  by_cases hh : dictHas d kp
  · rw [if_pos hh]
    unfold dictGet
    rw [find?_overwrite_other k kp v h d]
  · rw [if_neg hh]
    unfold dictGet
    cases hf : d.find? (fun p => p.1 == k) with
    | some p => rw [find?_append_of_some _ d [(kp, v)] p hf]
    | none =>
      rw [find?_append_of_none _ d [(kp, v)] hf]
      have : (kp == k) = false := by
        rw [beq_eq_false_iff_ne]
        exact h
      rw [List.find?_cons_of_neg _ (by simp [this])]
      rfl

theorem getStr_set_self (d : Dict) (k : String) (v : String) :
    getStr (dictSet d k (PyVal.str v)) k = v := by
  unfold getStr
  rw [dictGet_set_self]

theorem getStr_set_other (d : Dict) (kp : String) (v : PyVal) (k : String)
    (h : kp ≠ k) : getStr (dictSet d kp v) k = getStr d k := by
  unfold getStr
  rw [dictGet_set_other d kp v k h]

theorem getStr_headerFold (hm : Dict) :
    ∀ (keys : List String) (k : String), (∀ key ∈ keys, key ≠ k) →
      ∀ r, getStr (keys.foldl (headerStep hm) r) k = getStr r k := by
  intro keys
  induction keys with
  | nil => intro k _ r; rfl
  | cons key rest ih =>
    intro k h r
    show getStr (rest.foldl (headerStep hm) (headerStep hm r key)) k = _
    rw [ih k (fun q hq => h q (List.mem_cons_of_mem _ hq)) (headerStep hm r key)]
    unfold headerStep
    split
    · exact getStr_set_other _ _ _ _ (h key (List.mem_cons_self _ _))
    · rfl

theorem getStr_dateFold :
    ∀ (fields : List String) (k : String),
      (∀ f ∈ fields, f ≠ k ∧ f ++ "_RAW" ≠ k) →
      ∀ r, getStr (fields.foldl dateStep r) k = getStr r k := by
  intro fields
  induction fields with
  | nil => intro k _ r; rfl
  | cons f rest ih =>
    intro k h r
    show getStr (rest.foldl dateStep (dateStep r f)) k = _
    rw [ih k (fun q hq => h q (List.mem_cons_of_mem _ hq)) (dateStep r f)]
    unfold dateStep
    rw [getStr_set_other _ _ _ _ (h f (List.mem_cons_self _ _)).1]
    rw [getStr_set_other _ _ _ _ (h f (List.mem_cons_self _ _)).2]

theorem getStr_numFold (floatOk : String → Bool) :
    ∀ (fields : List String) (k : String),
      (∀ f ∈ fields, f ++ "_NUM" ≠ k) →
      ∀ r, getStr (fields.foldl (numStep floatOk) r) k = getStr r k := by
  intro fields
  induction fields with
  | nil => intro k _ r; rfl
  | cons f rest ih =>
    intro k h r
    show getStr (rest.foldl (numStep floatOk) (numStep floatOk r f)) k = _
    rw [ih k (fun q hq => h q (List.mem_cons_of_mem _ hq)) (numStep floatOk r f)]
    unfold numStep
    rw [getStr_set_other _ _ _ _ (h f (List.mem_cons_self _ _))]

/-- C8: per item row the status description field is the fixed
code-to-name lookup applied to the status code with default-to-key
(0, 1 and 2 named, anything else passing through raw), and the brand
resolution, modelled from the spec, is likewise a lookup that passes
unknown codes through unchanged and never errors. -/
theorem item_status_brand_lookup :
    (∀ (floatOk : String → Bool) (hm : Dict) (access : List (String × Option String)),
      getStr (deriveItem floatOk hm access) "STATUS_ITEM_PEDD_DESC" =
        statusLookup (getStr (deriveItem floatOk hm access) "STATUS_ITEM_PEDD")) ∧
    statusLookup "0" = "Cadastrado" ∧ statusLookup "1" = "Alterado" ∧
    statusLookup "2" = "Cancelado" ∧
    (∀ c, c ≠ "0" → c ≠ "1" → c ≠ "2" → statusLookup c = c) ∧
    (∀ (bm : List (String × String)) (c : String), (∀ p ∈ bm, p.1 ≠ c) →
      brandLookup bm c = c) := by
  refine ⟨?_, by decide, by decide, by decide, ?_, ?_⟩
  · intro floatOk hm access
    unfold deriveItem
    set row1 := HEADER_KEYS.foldl (headerStep hm) (flattenAccess access) with hrow1
    set row2 := dictSet row1 "STATUS_ITEM_PEDD_DESC"
      (PyVal.str (statusLookup (getStr row1 "STATUS_ITEM_PEDD"))) with hrow2
    set row3 := DATE_FIELDS.foldl dateStep row2 with hrow3
    set row4 := dictSet row3 "COR"
      (PyVal.str (if (getStr row3 "DESC_PRODUTO").data.contains '|' then
        pyStrip (lastBarPiece (getStr row3 "DESC_PRODUTO")) else "")) with hrow4
    have hL : getStr (NUM_FIELDS.foldl (numStep floatOk) row4) "STATUS_ITEM_PEDD_DESC" =
        statusLookup (getStr row1 "STATUS_ITEM_PEDD") := by
      rw [getStr_numFold floatOk NUM_FIELDS "STATUS_ITEM_PEDD_DESC" (by decide) row4]
      rw [hrow4, getStr_set_other _ _ _ _ (by decide)]
      rw [hrow3, getStr_dateFold DATE_FIELDS "STATUS_ITEM_PEDD_DESC" (by decide) row2]
      rw [hrow2, getStr_set_self]
    have hR : getStr (NUM_FIELDS.foldl (numStep floatOk) row4) "STATUS_ITEM_PEDD" =
        getStr row1 "STATUS_ITEM_PEDD" := by
      rw [getStr_numFold floatOk NUM_FIELDS "STATUS_ITEM_PEDD" (by decide) row4]
      rw [hrow4, getStr_set_other _ _ _ _ (by decide)]
      rw [hrow3, getStr_dateFold DATE_FIELDS "STATUS_ITEM_PEDD" (by decide) row2]
      rw [hrow2, getStr_set_other _ _ _ _ (by decide)]
    rw [hL, hR]
  · intro c h0 h1 h2
    unfold statusLookup STATUS_MAP
    rw [List.find?_cons_of_neg _ (by simp; exact fun he => h0 he.symm)]
    rw [List.find?_cons_of_neg _ (by simp; exact fun he => h1 he.symm)]
    rw [List.find?_cons_of_neg _ (by simp; exact fun he => h2 he.symm)]
    rfl
  · intro bm c h
    unfold brandLookup
    have hfn : bm.find? (fun p => p.1 == c) = none := by
      rw [List.find?_eq_none]
      intro p hp hpk
      exact h p hp (by rwa [← beq_iff_eq])
    rw [hfn]

/-- C8 witness: a concrete unknown status code passes through raw, both
inside a derived item row and in the bare lookups. -/
theorem item_status_brand_lookup_witness :
    getStr (deriveItem (fun _ => false) [] [("STATUS_ITEM_PEDD", some "5")])
        "STATUS_ITEM_PEDD_DESC" = "5" ∧
      statusLookup "7" = "7" ∧ brandLookup [("1", "A")] "9" = "9" := by
  refine ⟨?_,
    item_status_brand_lookup.2.2.2.2.1 "7" (by decide) (by decide) (by decide),
    item_status_brand_lookup.2.2.2.2.2 [("1", "A")] "9" (by decide)⟩
  have h := item_status_brand_lookup.1 (fun _ => false) [] [("STATUS_ITEM_PEDD", some "5")]
  rw [h]
  decide

/-! ## Item projection for the export layout (app.py, Itens tab) -/

/-- The flattened item table: its column labels and its rows. -/
structure ItemTable where
  cols : List String
  rows : List Dict

/-- The source column list `simple_cols_src` of app.py. -/
def simple_cols_src : List String :=
  ["NUM_PEDD_COMPRA", "CENTRO_LOGISTICO", "CD_ITEM_MATERIAL", "DESC_PRODUTO",
   "DESC_CAT_PRODUTO", "DESC_MODELO", "MARCA_IDO", "CD_COLECAO", "CD_LANCAMENTO",
   "VALOR_UNIT_PRODUTO", "GRADE", "TL_REQU", "CONDICAO_PAGTO", "DT_EMISSAO",
   "STATUS_ITEM_PEDD_DESC", "COR"]

/-- The `df_simple.rename(columns=...)` map of app.py: exactly two
columns change their label. -/
def renameCol (c : String) : String :=
  if c = "CENTRO_LOGISTICO" then "CENTRO LOGISTICO"
  else if c = "CD_LANCAMENTO" then "CD LANCAMENTO"
  else c

/-- The projection step of the Itens tab: compute the missing expected
columns (reported as a warning, never an abort), keep the available
ones in `simple_cols_src` order, select them from every row and rename
the two display labels. -/
def projectItems (t : ItemTable) : List String × ItemTable :=
  (simple_cols_src.filter (fun c => !(t.cols.contains c)),
   { cols := (simple_cols_src.filter (fun c => t.cols.contains c)).map renameCol,
     rows := t.rows.map (fun r =>
       (simple_cols_src.filter (fun c => t.cols.contains c)).map
         (fun c => (renameCol c, (dictGet r c).getD (PyVal.str "")))) })

/-- C9 counterexample: on a table holding every expected source column
the projected layout is the sixteen renamed source columns, not the
fifteen-name final layout stated by the claim. -/
theorem projectItems_cols_not_final_layout :
    (projectItems ⟨simple_cols_src, []⟩).2.cols ≠
      ["EMISSAO", "MARCA", "NUMERO PEDIDO", "SKU", "PRODUTO", "COR", "CATEGORIA",
       "TIPO", "COLECAO", "LANCAMENTO", "GRADE", "QUANTIDADE", "PRECO", "PAGAMENTO",
       "STATUS PEDIDO"] := by
  decide

theorem contains_eq_mem_str (l : List String) (c : String) :
    l.contains c = decide (c ∈ l) := by
  show l.elem c = _
  exact List.elem_eq_mem c l

theorem length_filter_partition {α : Type} (p : α → Bool) :
    ∀ l : List α, (l.filter p).length + (l.filter (fun a => !p a)).length = l.length := by
  intro l
  induction l with
  | nil => rfl
  | cons a rest ih =>
    by_cases ha : p a
    · rw [List.filter_cons_of_pos ha, List.filter_cons_of_neg (by simp [ha])]
      simp only [List.length_cons]
      omega
    · rw [List.filter_cons_of_neg ha, List.filter_cons_of_pos (by simp at ha; simp [ha])]
      simp only [List.length_cons]
      omega

/-- C9 (amended): projecting the flattened item table reports exactly
the expected source columns absent from the table as the non-fatal
warning list, silently omits them, and yields the present expected
columns in canonical order under the two renamed display labels; with
every source column present the output layout is exactly the sixteen
columns `NUM_PEDD_COMPRA, CENTRO LOGISTICO, CD_ITEM_MATERIAL,
DESC_PRODUTO, DESC_CAT_PRODUTO, DESC_MODELO, MARCA_IDO, CD_COLECAO,
CD LANCAMENTO, VALOR_UNIT_PRODUTO, GRADE, TL_REQU, CONDICAO_PAGTO,
DT_EMISSAO, STATUS_ITEM_PEDD_DESC, COR` in that order. -/
theorem projectItems_spec (t : ItemTable) :
    (∀ c, c ∈ (projectItems t).1 ↔ (c ∈ simple_cols_src ∧ c ∉ t.cols)) ∧
      (projectItems t).2.cols.length + (projectItems t).1.length = 16 ∧
      ((∀ c ∈ simple_cols_src, c ∈ t.cols) →
        (projectItems t).2.cols =
          ["NUM_PEDD_COMPRA", "CENTRO LOGISTICO", "CD_ITEM_MATERIAL", "DESC_PRODUTO",
           "DESC_CAT_PRODUTO", "DESC_MODELO", "MARCA_IDO", "CD_COLECAO", "CD LANCAMENTO",
           "VALOR_UNIT_PRODUTO", "GRADE", "TL_REQU", "CONDICAO_PAGTO", "DT_EMISSAO",
           "STATUS_ITEM_PEDD_DESC", "COR"]) ∧
      (∀ c ∈ (projectItems t).1, renameCol c ∉ (projectItems t).2.cols) := by
  refine ⟨?_, ?_, ?_, ?_⟩
  · intro c
    show c ∈ simple_cols_src.filter (fun c => !(t.cols.contains c)) ↔ _
    rw [List.mem_filter]
    simp [contains_eq_mem_str]
  · show ((simple_cols_src.filter (fun c => t.cols.contains c)).map renameCol).length +
      (simple_cols_src.filter (fun c => !(t.cols.contains c))).length = 16
    rw [List.length_map]
    exact length_filter_partition (fun c => t.cols.contains c) simple_cols_src
  · intro hall
    show (simple_cols_src.filter (fun c => t.cols.contains c)).map renameCol = _
    have hf : simple_cols_src.filter (fun c => t.cols.contains c) = simple_cols_src := by
      rw [List.filter_eq_self]
      intro c hc
      rw [contains_eq_mem_str]
      simp [hall c hc]
    rw [hf]
    decide
  · intro c hc hmem
    have hc2 : c ∈ simple_cols_src ∧ (t.cols.contains c) = false := by
      have := List.mem_filter.mp hc
      simpa using this
    obtain ⟨cp, hcp, hcpr⟩ := List.mem_map.mp hmem
    have hcp2 : cp ∈ simple_cols_src ∧ (t.cols.contains cp) = true := by
      have := List.mem_filter.mp hcp
      simpa using this
    have hinj : ∀ a ∈ simple_cols_src, ∀ b ∈ simple_cols_src,
        renameCol a = renameCol b → a = b := by decide
    have : cp = c := hinj cp hcp2.1 c hc2.1 hcpr
    rw [this] at hcp2
    rw [hcp2.2] at hc2
    cases hc2.2

/-- C9 witness: the full-table instance of the amended projection. -/
theorem projectItems_spec_witness :
    (projectItems ⟨simple_cols_src, []⟩).2.cols =
      ["NUM_PEDD_COMPRA", "CENTRO LOGISTICO", "CD_ITEM_MATERIAL", "DESC_PRODUTO",
       "DESC_CAT_PRODUTO", "DESC_MODELO", "MARCA_IDO", "CD_COLECAO", "CD LANCAMENTO",
       "VALOR_UNIT_PRODUTO", "GRADE", "TL_REQU", "CONDICAO_PAGTO", "DT_EMISSAO",
       "STATUS_ITEM_PEDD_DESC", "COR"] :=
  (projectItems_spec ⟨simple_cols_src, []⟩).2.2.1 (fun c hc => hc)

/-! ## Trimming invariant of the public interface (C10) -/

/-- A dictionary value is trimmed when its string content carries no
leading or trailing whitespace (numeric companions are not strings). -/
def ValTrimmed : PyVal → Prop
  | PyVal.str s => pyStrip s = s
  | PyVal.numOpt _ => True

/-- Every string value of the dict is trimmed. -/
def DictTrimmed (d : Dict) : Prop :=
  ∀ p ∈ d, ValTrimmed p.2

theorem pyStrip_pyStrip_eq (s : String) : pyStrip (pyStrip s) = pyStrip s :=
  pyStrip_idem s

theorem pyStrip_empty : pyStrip "" = "" := rfl

theorem parse_to_date_trimmed (raw : String) :
    pyStrip (parse_to_date raw) = parse_to_date raw := by
  by_cases h0 : raw.data = []
  · have he : parse_to_date raw = "" := by
      unfold parse_to_date
      rw [if_pos h0]
    rw [he]
    rfl
  · cases hTD : toDateSearch (stripL raw.data) with
    | some digs =>
      have hbr := parse_to_date_toDate_branch raw h0 hTD
      cases hP : strptimeDmY8 digs with
      | some t =>
        obtain ⟨y, md⟩ := t
        obtain ⟨m, d⟩ := md
        rw [hP] at hbr
        have hbr2 : parse_to_date raw = formatDate y m d := hbr
        rw [hbr2]
        exact formatDate_trimmed y m d
      | none =>
        rw [hP] at hbr
        have hbr2 : parse_to_date raw = "" := hbr
        rw [hbr2]
        rfl
    | none =>
      have hbr := parse_to_date_no_toDate raw h0 hTD
      by_cases h8 : ((stripL raw.data).length = 8 && (stripL raw.data).all Char.isDigit) = true
      · rw [if_pos h8] at hbr
        cases hY : strptimeYmd8 (stripL raw.data) with
        | some t =>
          obtain ⟨y, md⟩ := t
          obtain ⟨m, d⟩ := md
          rw [hY] at hbr
          have hbr2 : parse_to_date raw = formatDate y m d := hbr
          rw [hbr2]
          exact formatDate_trimmed y m d
        | none =>
          rw [hY] at hbr
          cases hD : strptimeDmY8 (stripL raw.data) with
          | some t =>
            obtain ⟨y, md⟩ := t
            obtain ⟨m, d⟩ := md
            rw [hD] at hbr
            have hbr2 : parse_to_date raw = formatDate y m d := hbr
            rw [hbr2]
            exact formatDate_trimmed y m d
          | none =>
            rw [hD] at hbr
            have hbr2 : parse_to_date raw = String.mk (stripL raw.data) := hbr
            rw [hbr2]
            show String.mk (stripL (stripL raw.data)) = String.mk (stripL raw.data)
            rw [stripL_idem]
      · rw [if_neg h8] at hbr
        cases hF : tryNormalFormats (stripL raw.data) with
        | some t =>
          obtain ⟨y, md⟩ := t
          obtain ⟨m, d⟩ := md
          rw [hF] at hbr
          have hbr2 : parse_to_date raw = formatDate y m d := hbr
          rw [hbr2]
          exact formatDate_trimmed y m d
        | none =>
          rw [hF] at hbr
          have hbr2 : parse_to_date raw = String.mk (stripL raw.data) := hbr
          rw [hbr2]
          show String.mk (stripL (stripL raw.data)) = String.mk (stripL raw.data)
          rw [stripL_idem]

theorem statusLookup_trimmed {c : String} (hc : pyStrip c = c) :
    pyStrip (statusLookup c) = statusLookup c := by
  unfold statusLookup
  cases hf : STATUS_MAP.find? (fun p => p.1 == c) with
  | none => exact hc
  | some p =>
    have hp : p ∈ STATUS_MAP := List.mem_of_find?_eq_some hf
    unfold STATUS_MAP at hp
    rcases List.mem_cons.mp hp with rfl | hp2
    · show pyStrip "Cadastrado" = "Cadastrado"
      decide
    · rcases List.mem_cons.mp hp2 with rfl | hp3
      · show pyStrip "Alterado" = "Alterado"
        decide
      · rcases List.mem_cons.mp hp3 with rfl | hp4
        · show pyStrip "Cancelado" = "Cancelado"
          decide
        · simp at hp4

theorem dictGet_trimmed {d : Dict} {k : String} {v : PyVal}
    (hd : DictTrimmed d) (h : dictGet d k = some v) : ValTrimmed v := by
  unfold dictGet at h
  cases hf : d.find? (fun p => p.1 == k) with
  | none => rw [hf] at h; cases h
  | some p =>
    rw [hf] at h
    injection h with h2
    rw [← h2]
    exact hd p (List.mem_of_find?_eq_some hf)

theorem getStr_trimmed {d : Dict} (k : String) (hd : DictTrimmed d) :
    pyStrip (getStr d k) = getStr d k := by
  unfold getStr
  cases hg : dictGet d k with
  | none => rfl
  | some v =>
    cases v with
    | str s => exact dictGet_trimmed hd hg
    | numOpt o => rfl

theorem dictSet_trimmed {d : Dict} {v : PyVal} (k : String)
    (hd : DictTrimmed d) (hv : ValTrimmed v) : DictTrimmed (dictSet d k v) := by
  unfold dictSet
  by_cases h : dictHas d k
  · rw [if_pos h]
    intro q hq
    obtain ⟨p, hp, hfp⟩ := List.mem_map.mp hq
    by_cases hpk : (p.1 == k) = true
    · rw [if_pos hpk] at hfp
      rw [← hfp]
      exact hv
    · rw [if_neg hpk] at hfp
      rw [← hfp]
      exact hd p hp
  · rw [if_neg h]
    intro q hq
    rcases List.mem_append.mp hq with h2 | h2
    · exact hd q h2
    · rcases List.mem_cons.mp h2 with rfl | h3
      · exact hv
      · simp at h3

theorem foldl_preserve_trimmed {α : Type} (step : Dict → α → Dict)
    (hstep : ∀ r a, DictTrimmed r → DictTrimmed (step r a)) :
    ∀ (l : List α) (r : Dict), DictTrimmed r → DictTrimmed (l.foldl step r) := by
  intro l
  induction l with
  | nil => intro r h; exact h
  | cons a rest ih =>
    intro r h
    exact ih (step r a) (hstep r a h)

theorem flattenAccess_trimmed (access : List (String × Option String)) :
    DictTrimmed (flattenAccess access) := by
  unfold flattenAccess
  apply foldl_preserve_trimmed
  · intro r p hr
    apply dictSet_trimmed _ hr
    show pyStrip (pyStrip (p.2.getD "")) = pyStrip (p.2.getD "")
    exact pyStrip_idem _
  · intro p hp
    simp at hp

theorem headerStep_trimmed (hm : Dict) (hhm : DictTrimmed hm) :
    ∀ (r : Dict) (key : String), DictTrimmed r → DictTrimmed (headerStep hm r key) := by
  intro r key hr
  unfold headerStep
  split
  · apply dictSet_trimmed _ hr
    cases hg : dictGet hm key with
    | none =>
      show ValTrimmed ((Option.none).getD (PyVal.str ""))
      exact pyStrip_empty
    | some v =>
      show ValTrimmed ((some v).getD (PyVal.str ""))
      exact dictGet_trimmed hhm hg
  · exact hr

theorem dateStep_trimmed :
    ∀ (r : Dict) (f : String), DictTrimmed r → DictTrimmed (dateStep r f) := by
  intro r f hr
  unfold dateStep
  apply dictSet_trimmed
  · apply dictSet_trimmed _ hr
    exact getStr_trimmed f hr
  · exact parse_to_date_trimmed (getStr r f)

theorem numStep_trimmed (floatOk : String → Bool) :
    ∀ (r : Dict) (f : String), DictTrimmed r → DictTrimmed (numStep floatOk r f) := by
  intro r f hr
  unfold numStep
  apply dictSet_trimmed _ hr
  exact trivial

/-- One order-table file on disk: column labels and aligned string rows. -/
structure StrTable where
  cols : List String
  rows : List (List String)

/-- Selection of the cell of column `c` from an aligned row. -/
def cellAt (cols : List String) (row : List String) (c : String) : String :=
  match cols.findIdx? (fun x => x == c) with
  | some i => row.getD i ""
  | none => ""

/-- `df[cs]`: project the table to the named columns, in order. -/
def selectCols (t : StrTable) (cs : List String) : StrTable :=
  ⟨cs, t.rows.map (fun r => cs.map (fun c => cellAt t.cols r c))⟩

/-- Embedding of `load_existing` in admin_app.py: a missing file yields
the empty schema-only table; otherwise every cell is stripped, the
missing canonical columns are appended as empty, and the table is
projected to the canonical column set. -/
def load_existing (file : Option StrTable) : StrTable :=
  match file with
  | none => ⟨COLUMNS, []⟩
  | some t =>
    selectCols
      ⟨t.cols ++ COLUMNS.filter (fun c => !(t.cols.contains c)),
       (t.rows.map (fun r => r.map pyStrip)).map
         (fun r => r ++ (COLUMNS.filter (fun c => !(t.cols.contains c))).map (fun _ => ""))⟩
      COLUMNS

theorem getD_trimmed :
    ∀ (r : List String) (i : Nat), (∀ x ∈ r, pyStrip x = x) →
      pyStrip (r.getD i "") = r.getD i "" := by
  intro r
  induction r with
  | nil => intro i _; cases i <;> rfl
  | cons a rest ih =>
    intro i h
    cases i with
    | zero => exact h a (List.mem_cons_self _ _)
    | succ j => exact ih j (fun x hx => h x (List.mem_cons_of_mem _ hx))

theorem deriveHeader_trimmed (access : List (String × Option String)) :
    DictTrimmed (deriveHeader access) := by
  have hA : DictTrimmed (flattenAccess access) := flattenAccess_trimmed access
  have hB : DictTrimmed (dictSet (flattenAccess access) "DT_EMISSAO_RAW"
      (PyVal.str (getStr (flattenAccess access) "DT_EMISSAO"))) :=
    dictSet_trimmed _ hA (getStr_trimmed _ hA)
  have hC : DictTrimmed (dictSet (dictSet (flattenAccess access) "DT_EMISSAO_RAW"
      (PyVal.str (getStr (flattenAccess access) "DT_EMISSAO"))) "DT_EMISSAO"
      (PyVal.str (parse_to_date (getStr (dictSet (flattenAccess access) "DT_EMISSAO_RAW"
        (PyVal.str (getStr (flattenAccess access) "DT_EMISSAO"))) "DT_EMISSAO_RAW")))) :=
    dictSet_trimmed _ hB (parse_to_date_trimmed _)
  have hD : DictTrimmed (dictSet (dictSet (dictSet (flattenAccess access) "DT_EMISSAO_RAW"
      (PyVal.str (getStr (flattenAccess access) "DT_EMISSAO"))) "DT_EMISSAO"
      (PyVal.str (parse_to_date (getStr (dictSet (flattenAccess access) "DT_EMISSAO_RAW"
        (PyVal.str (getStr (flattenAccess access) "DT_EMISSAO"))) "DT_EMISSAO_RAW"))))
      "PERIODO_ENTREGA_RAW"
      (PyVal.str (getStr (dictSet (dictSet (flattenAccess access) "DT_EMISSAO_RAW"
        (PyVal.str (getStr (flattenAccess access) "DT_EMISSAO"))) "DT_EMISSAO"
        (PyVal.str (parse_to_date (getStr (dictSet (flattenAccess access) "DT_EMISSAO_RAW"
          (PyVal.str (getStr (flattenAccess access) "DT_EMISSAO"))) "DT_EMISSAO_RAW"))))
        "PERIODO_ENTREGA"))) :=
    dictSet_trimmed _ hC (getStr_trimmed _ hC)
  exact dictSet_trimmed _ hD (parse_to_date_trimmed _)

theorem deriveItem_trimmed (floatOk : String → Bool) (hm : Dict)
    (access : List (String × Option String)) (hhm : DictTrimmed hm) :
    DictTrimmed (deriveItem floatOk hm access) := by
  have h0 : DictTrimmed (flattenAccess access) := flattenAccess_trimmed access
  have h1 : DictTrimmed (HEADER_KEYS.foldl (headerStep hm) (flattenAccess access)) :=
    foldl_preserve_trimmed _ (fun r a hr => headerStep_trimmed hm hhm r a hr) _ _ h0
  have h2 : DictTrimmed (dictSet (HEADER_KEYS.foldl (headerStep hm) (flattenAccess access))
      "STATUS_ITEM_PEDD_DESC"
      (PyVal.str (statusLookup (getStr (HEADER_KEYS.foldl (headerStep hm)
        (flattenAccess access)) "STATUS_ITEM_PEDD")))) :=
    dictSet_trimmed _ h1 (statusLookup_trimmed (getStr_trimmed _ h1))
  have h3 : DictTrimmed (DATE_FIELDS.foldl dateStep
      (dictSet (HEADER_KEYS.foldl (headerStep hm) (flattenAccess access))
        "STATUS_ITEM_PEDD_DESC"
        (PyVal.str (statusLookup (getStr (HEADER_KEYS.foldl (headerStep hm)
          (flattenAccess access)) "STATUS_ITEM_PEDD"))))) :=
    foldl_preserve_trimmed _ (fun r a hr => dateStep_trimmed r a hr) _ _ h2
  have h4 : DictTrimmed (dictSet (DATE_FIELDS.foldl dateStep
      (dictSet (HEADER_KEYS.foldl (headerStep hm) (flattenAccess access))
        "STATUS_ITEM_PEDD_DESC"
        (PyVal.str (statusLookup (getStr (HEADER_KEYS.foldl (headerStep hm)
          (flattenAccess access)) "STATUS_ITEM_PEDD"))))) "COR"
      (PyVal.str (if (getStr (DATE_FIELDS.foldl dateStep
          (dictSet (HEADER_KEYS.foldl (headerStep hm) (flattenAccess access))
            "STATUS_ITEM_PEDD_DESC"
            (PyVal.str (statusLookup (getStr (HEADER_KEYS.foldl (headerStep hm)
              (flattenAccess access)) "STATUS_ITEM_PEDD"))))) "DESC_PRODUTO").data.contains '|'
        then pyStrip (lastBarPiece (getStr (DATE_FIELDS.foldl dateStep
          (dictSet (HEADER_KEYS.foldl (headerStep hm) (flattenAccess access))
            "STATUS_ITEM_PEDD_DESC"
            (PyVal.str (statusLookup (getStr (HEADER_KEYS.foldl (headerStep hm)
              (flattenAccess access)) "STATUS_ITEM_PEDD"))))) "DESC_PRODUTO"))
        else ""))) := by
    apply dictSet_trimmed _ h3
    show pyStrip _ = _
    split
    · exact pyStrip_idem _
    · rfl
  exact foldl_preserve_trimmed _ (fun r a hr => numStep_trimmed floatOk r a hr) _ _ h4

theorem deriveGradeRow_trimmed (floatOk : String → Bool)
    (access : List (String × Option String)) :
    DictTrimmed (deriveGradeRow floatOk access) := by
  have h0 : DictTrimmed (flattenAccess access) := flattenAccess_trimmed access
  exact dictSet_trimmed _ h0 trivial

theorem tokensOf_trimmed (raw : String) :
    ∀ t ∈ tokensOf raw, pyStrip t = t ∧ t ≠ "" := by
  intro t ht
  unfold tokensOf at ht
  have h2 := List.mem_filter.mp ht
  obtain ⟨p, hp, rfl⟩ := List.mem_map.mp h2.1
  refine ⟨?_, by simpa using h2.2⟩
  show String.mk (stripL (String.mk (stripL p)).data) = String.mk (stripL p)
  rw [show (String.mk (stripL p)).data = stripL p from rfl, stripL_idem]

theorem load_existing_trimmed :
    ∀ (file : Option StrTable), ∀ row ∈ (load_existing file).rows, ∀ cell ∈ row,
      pyStrip cell = cell := by
  intro file
  cases file with
  | none =>
    intro row hrow
    simp [load_existing] at hrow
  | some t =>
    intro row hrow cell hcell
    have hrows : (load_existing (some t)).rows =
        ((t.rows.map (fun r => r.map pyStrip)).map
          (fun r => r ++ (COLUMNS.filter (fun c => !(t.cols.contains c))).map
            (fun _ => ""))).map
          (fun r => COLUMNS.map (fun c =>
            cellAt (t.cols ++ COLUMNS.filter (fun c => !(t.cols.contains c))) r c)) := rfl
    rw [hrows] at hrow
    obtain ⟨r, hr, rfl⟩ := List.mem_map.mp hrow
    obtain ⟨c, hc, rfl⟩ := List.mem_map.mp hcell
    unfold cellAt
    cases hidx : (t.cols ++ COLUMNS.filter (fun c => !(t.cols.contains c))).findIdx?
        (fun x => x == c) with
    | none => rfl
    | some i =>
      apply getD_trimmed
      intro x hx
      obtain ⟨r1, hr1, rfl⟩ := List.mem_map.mp hr
      rcases List.mem_append.mp hx with hx1 | hx1
      · obtain ⟨r0, hr0, rfl⟩ := List.mem_map.mp hr1
        obtain ⟨x0, hx0, rfl⟩ := List.mem_map.mp hx1
        exact pyStrip_idem x0
      · obtain ⟨c0, hc0, rfl⟩ := List.mem_map.mp hx1
        rfl

/-- C10: every string value reaching the public interface is
whitespace-trimmed: all string values of every derived header, item,
grade and volume row; every token of the pasted-text tokenizer (which
is also non-empty); and every cell of the loaded persisted table. -/
theorem public_values_trimmed :
    (∀ access, DictTrimmed (deriveHeader access)) ∧
      (∀ (floatOk : String → Bool) (hm : Dict) access, DictTrimmed hm →
        DictTrimmed (deriveItem floatOk hm access)) ∧
      (∀ (floatOk : String → Bool) access, DictTrimmed (deriveGradeRow floatOk access)) ∧
      (∀ raw, ∀ t ∈ tokensOf raw, pyStrip t = t ∧ t ≠ "") ∧
      (∀ file, ∀ row ∈ (load_existing file).rows, ∀ cell ∈ row, pyStrip cell = cell) :=
  ⟨deriveHeader_trimmed,
   fun floatOk hm access hhm => deriveItem_trimmed floatOk hm access hhm,
   deriveGradeRow_trimmed,
   tokensOf_trimmed,
   load_existing_trimmed⟩

/-- C10 witness: a concrete derived item row (with an empty header map)
has only trimmed string values. -/
theorem public_values_trimmed_witness :
    DictTrimmed (deriveItem (fun _ => false) []
      [("DESC_PRODUTO", some " A | B "), ("STATUS_ITEM_PEDD", some " 0 ")]) :=
  public_values_trimmed.2.1 (fun _ => false) []
    [("DESC_PRODUTO", some " A | B "), ("STATUS_ITEM_PEDD", some " 0 ")]
    (by intro p hp; simp at hp)
